import Mathlib

/-!
A verification development for the marian-rs full-text search engine.

Strings manipulated by byte offset in the Rust source are modelled as
`List Char`; every string constant involved is ASCII, where byte offsets
and character offsets coincide.  `f32` weights stored in the index are
modelled as `ℚ` (they are exact decimal constants in the source), and the
results of the logarithmic scoring arithmetic as `ℝ`.
-/

namespace Marian

/-! ### URL normalization (src/fts.rs, `normalize_url`) -/

/-- The pattern `"/index.html"` searched for by `normalize_url`. -/
def indexHtml : List Char := "/index.html".data

/-- All character offsets of `u` at which `indexHtml` occurs
(`url.rfind` scans for these; we keep the whole ascending list). -/
def occIndices (u : List Char) : List Nat :=
  (List.range (u.length + 1)).filter (fun i => indexHtml.isPrefixOf (u.drop i))

/-- `url.rfind("/index.html")`: the greatest occurrence offset, if any. -/
def rfindIndexHtml (u : List Char) : Option Nat :=
  (occIndices u).max?

/-- `normalize_url` from src/fts.rs: truncate just after the trailing slash
before the last `/index.html`, then ensure a trailing `'/'`. -/
def normalize_url (u : List Char) : List Char :=
  let u' := match rfindIndexHtml u with
    | some offset => u.take (offset + 1)
    | none => u
  if u'.getLast? = some '/' then u' else u' ++ ['/']

/-! ### The Porter2 stemmer (src/porter2.rs)

A faithful port of the Snowball-generated `StemmerContext`.  The context's
mutable fields become a structure threaded through every routine; a routine
that can hit a Rust panic — `unreachable!()` in a `match among_var`, an
`unwrap()` on `chars().nth(..)`, or an out-of-bounds slice — returns
`none`.  Cursors are `Int` exactly as the Rust code uses `i32`; all engine
input is ASCII, where Rust's byte indices coincide with our char indices.
Loops that the Rust code drives by cursor movement take a fuel argument
that strictly exceeds any possible iteration count, so fuel exhaustion is
unreachable on the inputs evaluated here. -/

structure Among where
  s : List Char
  substring_i : Int
  result : Int

structure Ctx where
  current : List Char
  cursor : Int
  limit : Int
  limit_backward : Int
  bra : Int
  ket : Int
  b_Y_found : Bool
  i_p1 : Int
  i_p2 : Int
deriving DecidableEq

def a_0 : List Among :=
  [⟨"arsen".data, -1, -1⟩, ⟨"commun".data, -1, -1⟩, ⟨"gener".data, -1, -1⟩]

def a_1 : List Among :=
  [⟨"'".data, -1, 1⟩, ⟨"'s'".data, 0, 1⟩, ⟨"'s".data, -1, 1⟩]

def a_2 : List Among :=
  [⟨"ied".data, -1, 2⟩, ⟨"s".data, -1, 3⟩, ⟨"ies".data, 1, 2⟩,
   ⟨"sses".data, 1, 1⟩, ⟨"ss".data, 1, -1⟩, ⟨"us".data, 1, -1⟩]

def a_3 : List Among :=
  [⟨"".data, -1, 3⟩, ⟨"bb".data, 0, 2⟩, ⟨"dd".data, 0, 2⟩, ⟨"ff".data, 0, 2⟩,
   ⟨"gg".data, 0, 2⟩, ⟨"bl".data, 0, 1⟩, ⟨"mm".data, 0, 2⟩, ⟨"nn".data, 0, 2⟩,
   ⟨"pp".data, 0, 2⟩, ⟨"rr".data, 0, 2⟩, ⟨"at".data, 0, 1⟩, ⟨"tt".data, 0, 2⟩,
   ⟨"iz".data, 0, 1⟩]

def a_4 : List Among :=
  [⟨"ed".data, -1, 2⟩, ⟨"eed".data, 0, 1⟩, ⟨"ing".data, -1, 2⟩,
   ⟨"edly".data, -1, 2⟩, ⟨"eedly".data, 3, 1⟩, ⟨"ingly".data, -1, 2⟩]

def a_5 : List Among :=
  [⟨"anci".data, -1, 3⟩, ⟨"enci".data, -1, 2⟩, ⟨"ogi".data, -1, 13⟩,
   ⟨"li".data, -1, 16⟩, ⟨"bli".data, 3, 12⟩, ⟨"abli".data, 4, 4⟩,
   ⟨"alli".data, 3, 8⟩, ⟨"fulli".data, 3, 14⟩, ⟨"lessli".data, 3, 15⟩,
   ⟨"ousli".data, 3, 10⟩, ⟨"entli".data, 3, 5⟩, ⟨"aliti".data, -1, 8⟩,
   ⟨"biliti".data, -1, 12⟩, ⟨"iviti".data, -1, 11⟩, ⟨"tional".data, -1, 1⟩,
   ⟨"ational".data, 14, 7⟩, ⟨"alism".data, -1, 8⟩, ⟨"ation".data, -1, 7⟩,
   ⟨"ization".data, 17, 6⟩, ⟨"izer".data, -1, 6⟩, ⟨"ator".data, -1, 7⟩,
   ⟨"iveness".data, -1, 11⟩, ⟨"fulness".data, -1, 9⟩, ⟨"ousness".data, -1, 10⟩]

def a_6 : List Among :=
  [⟨"icate".data, -1, 4⟩, ⟨"ative".data, -1, 6⟩, ⟨"alize".data, -1, 3⟩,
   ⟨"iciti".data, -1, 4⟩, ⟨"ical".data, -1, 4⟩, ⟨"tional".data, -1, 1⟩,
   ⟨"ational".data, 5, 2⟩, ⟨"ful".data, -1, 5⟩, ⟨"ness".data, -1, 5⟩]

def a_7 : List Among :=
  [⟨"ic".data, -1, 1⟩, ⟨"ance".data, -1, 1⟩, ⟨"ence".data, -1, 1⟩,
   ⟨"able".data, -1, 1⟩, ⟨"ible".data, -1, 1⟩, ⟨"ate".data, -1, 1⟩,
   ⟨"ive".data, -1, 1⟩, ⟨"ize".data, -1, 1⟩, ⟨"iti".data, -1, 1⟩,
   ⟨"al".data, -1, 1⟩, ⟨"ism".data, -1, 1⟩, ⟨"ion".data, -1, 2⟩,
   ⟨"er".data, -1, 1⟩, ⟨"ous".data, -1, 1⟩, ⟨"ant".data, -1, 1⟩,
   ⟨"ent".data, -1, 1⟩, ⟨"ment".data, 15, 1⟩, ⟨"ement".data, 16, 1⟩]

def a_8 : List Among := [⟨"e".data, -1, 1⟩, ⟨"l".data, -1, 2⟩]

def a_9 : List Among :=
  [⟨"succeed".data, -1, -1⟩, ⟨"proceed".data, -1, -1⟩, ⟨"exceed".data, -1, -1⟩,
   ⟨"canning".data, -1, -1⟩, ⟨"inning".data, -1, -1⟩, ⟨"earring".data, -1, -1⟩,
   ⟨"herring".data, -1, -1⟩, ⟨"outing".data, -1, -1⟩]

def a_10 : List Among :=
  [⟨"andes".data, -1, -1⟩, ⟨"atlas".data, -1, -1⟩, ⟨"bias".data, -1, -1⟩,
   ⟨"cosmos".data, -1, -1⟩, ⟨"dying".data, -1, 3⟩, ⟨"early".data, -1, 11⟩,
   ⟨"gently".data, -1, 9⟩, ⟨"howe".data, -1, -1⟩, ⟨"idly".data, -1, 8⟩,
   ⟨"importance".data, -1, 7⟩, ⟨"important".data, -1, -1⟩,
   ⟨"lying".data, -1, 4⟩, ⟨"news".data, -1, -1⟩, ⟨"only".data, -1, 12⟩,
   ⟨"replica".data, -1, 6⟩, ⟨"singly".data, -1, 13⟩, ⟨"skies".data, -1, 2⟩,
   ⟨"skis".data, -1, 1⟩, ⟨"sky".data, -1, -1⟩, ⟨"tying".data, -1, 5⟩,
   ⟨"ugly".data, -1, 10⟩]

def g_v : List Nat := [17, 65, 16, 1]

def g_v_WXY : List Nat := [1, 17, 65, 208, 1]

def g_valid_LI : List Nat := [55, 141, 2]

/-- `self.current.chars().nth(i as usize)`: `none` stands for the range
where `unwrap()` panics (negative `i` wraps to a huge `usize`). -/
def charAt (l : List Char) (i : Int) : Option Char :=
  if 0 ≤ i then l[i.toNat]? else none

def in_grouping (s : List Nat) (minN maxN : Nat) (ctx : Ctx) :
    Option (Bool × Ctx) :=
  if ctx.cursor ≥ ctx.limit then some (false, ctx)
  else
    match charAt ctx.current ctx.cursor with
    | none => none
    | some ch =>
      let c := ch.toNat
      if c > maxN ∨ c < minN then some (false, ctx)
      else
        let c := c - minN
        match s[c / 8]? with
        | none => none
        | some w =>
          if ¬ w.testBit (c % 8) then some (false, ctx)
          else some (true, { ctx with cursor := ctx.cursor + 1 })

def in_grouping_b (s : List Nat) (minN maxN : Nat) (ctx : Ctx) :
    Option (Bool × Ctx) :=
  if ctx.cursor ≤ ctx.limit_backward then some (false, ctx)
  else
    match charAt ctx.current (ctx.cursor - 1) with
    | none => none
    | some ch =>
      let c := ch.toNat
      if c > maxN ∨ c < minN then some (false, ctx)
      else
        let c := c - minN
        match s[c / 8]? with
        | none => none
        | some w =>
          if ¬ w.testBit (c % 8) then some (false, ctx)
          else some (true, { ctx with cursor := ctx.cursor - 1 })

def out_grouping (s : List Nat) (minN maxN : Nat) (ctx : Ctx) :
    Option (Bool × Ctx) :=
  if ctx.cursor ≥ ctx.limit then some (false, ctx)
  else
    match charAt ctx.current ctx.cursor with
    | none => none
    | some ch =>
      let c := ch.toNat
      if c > maxN ∨ c < minN then some (true, { ctx with cursor := ctx.cursor + 1 })
      else
        let c := c - minN
        match s[c / 8]? with
        | none => none
        | some w =>
          if ¬ w.testBit (c % 8) then
            some (true, { ctx with cursor := ctx.cursor + 1 })
          else some (false, ctx)

def out_grouping_b (s : List Nat) (minN maxN : Nat) (ctx : Ctx) :
    Option (Bool × Ctx) :=
  if ctx.cursor ≤ ctx.limit_backward then some (false, ctx)
  else
    match charAt ctx.current (ctx.cursor - 1) with
    | none => none
    | some ch =>
      let c := ch.toNat
      if c > maxN ∨ c < minN then some (true, { ctx with cursor := ctx.cursor - 1 })
      else
        let c := c - minN
        match s[c / 8]? with
        | none => none
        | some w =>
          if ¬ w.testBit (c % 8) then
            some (true, { ctx with cursor := ctx.cursor - 1 })
          else some (false, ctx)

def eq_s (s : List Char) (ctx : Ctx) : Option (Bool × Ctx) :=
  if ctx.limit - ctx.cursor < (s.length : Int) then some (false, ctx)
  else if ctx.cursor < 0 then none
  else if ctx.current.length < ctx.cursor.toNat + s.length then none
  else if (ctx.current.drop ctx.cursor.toNat).take s.length ≠ s then
    some (false, ctx)
  else some (true, { ctx with cursor := ctx.cursor + (s.length : Int) })

def eq_s_b (s : List Char) (ctx : Ctx) : Option (Bool × Ctx) :=
  if ctx.cursor - ctx.limit_backward < (s.length : Int) then some (false, ctx)
  else if ctx.cursor < (s.length : Int) then none
  else if ctx.current.length < ctx.cursor.toNat then none
  else if (ctx.current.take ctx.cursor.toNat).drop (ctx.cursor.toNat - s.length) ≠ s then
    some (false, ctx)
  else some (true, { ctx with cursor := ctx.cursor - (s.length : Int) })

/-- `replace_s`; `none` where the Rust string slicing panics. -/
def replace_s (c_bra c_ket : Int) (s : List Char) (ctx : Ctx) :
    Option (Int × Ctx) :=
  if c_bra < 0 ∨ (ctx.current.length : Int) < c_bra ∨
      c_ket < 0 ∨ (ctx.current.length : Int) < c_ket then none
  else
    let adjustment : Int := (s.length : Int) - (c_ket - c_bra)
    let current := ctx.current.take c_bra.toNat ++ s ++ ctx.current.drop c_ket.toNat
    let cursor :=
      if ctx.cursor ≥ c_ket then ctx.cursor + adjustment
      else if ctx.cursor > c_bra then c_bra
      else ctx.cursor
    some (adjustment,
      { ctx with
        current := current, limit := ctx.limit + adjustment,
        cursor := cursor })

def slice_check (ctx : Ctx) : Bool :=
  if ctx.bra < 0 ∨ ctx.bra > ctx.ket ∨ ctx.ket > ctx.limit ∨
      ctx.limit > (ctx.current.length : Int) then false else true

def slice_from (s : List Char) (ctx : Ctx) : Option (Bool × Ctx) :=
  if slice_check ctx then
    match replace_s ctx.bra ctx.ket s ctx with
    | none => none
    | some (_, ctx') => some (true, ctx')
  else some (false, ctx)

def slice_del (ctx : Ctx) : Option (Bool × Ctx) := slice_from [] ctx

def insertS (c_bra c_ket : Int) (s : List Char) (ctx : Ctx) : Option Ctx :=
  match replace_s c_bra c_ket s ctx with
  | none => none
  | some (adjustment, ctx') =>
    some { ctx' with
      bra := if c_bra ≤ ctx'.bra then ctx'.bra + adjustment else ctx'.bra,
      ket := if c_bra ≤ ctx'.ket then ctx'.ket + adjustment else ctx'.ket }

/-- The inner character loop of `find_among` (forward): compares
`current[c+common..]` against `w[common..]`, `-1` standing for running into
the limit.  The loop index `i2` stays equal to `common`, so only `common`
is tracked. -/
def amongCmpF (cur w : List Char) (c l : Int) : Nat → Int → Option (Int × Int)
  | 0, _ => none
  | fuel+1, common =>
    if common ≥ (w.length : Int) then some (0, common)
    else if c + common = l then some (-1, common)
    else
      match charAt cur (c + common), charAt w common with
      | some a, some b =>
        let diff : Int := (a.toNat : Int) - (b.toNat : Int)
        if diff = 0 then amongCmpF cur w c l fuel (common + 1)
        else some (diff, common)
      | _, _ => none

/-- The inner character loop of `find_among_b` (backward): the loop index
`i2` stays equal to `w.length - 1 - common`. -/
def amongCmpB (cur w : List Char) (c lb : Int) : Nat → Int → Option (Int × Int)
  | 0, _ => none
  | fuel+1, common =>
    if common ≥ (w.length : Int) then some (0, common)
    else if c - common = lb then some (-1, common)
    else
      match charAt cur (c - 1 - common), charAt w ((w.length : Int) - 1 - common) with
      | some a, some b =>
        let diff : Int := (a.toNat : Int) - (b.toNat : Int)
        if diff = 0 then amongCmpB cur w c lb fuel (common + 1)
        else some (diff, common)
      | _, _ => none

/-- The binary-search loop shared by `find_among`/`find_among_b`; `back`
selects the backward comparison.  `(j - i) >> 1` is written `/ 2`: the
interval width is never negative.  Returns the final `(i, common_i)`. -/
def findAmongLoop (back : Bool) (cur : List Char) (c bound : Int)
    (v : List Among) : Nat → Int → Int → Int → Int → Bool → Option (Int × Int)
  | 0, _, _, _, _, _ => none
  | fuel+1, i, j, ci, cj, fki =>
    let k := i + (j - i) / 2
    match v[k.toNat]? with
    | none => none
    | some w =>
      let common := min ci cj
      let cmp := if back then amongCmpB cur w.s c bound (w.s.length + 1) common
        else amongCmpF cur w.s c bound (w.s.length + 1) common
      match cmp with
      | none => none
      | some (diff, common) =>
        let s : Int × Int × Int × Int :=
          if diff < 0 then (i, k, ci, common) else (k, j, common, cj)
        match s with
        | (i', j', ci', cj') =>
          if j' - i' ≤ 1 then
            if i' > 0 ∨ j' = i' ∨ fki then some (i', ci')
            else findAmongLoop back cur c bound v fuel i' j' ci' cj' true
          else findAmongLoop back cur c bound v fuel i' j' ci' cj' fki

/-- The trailing chain of `find_among`/`find_among_b`: follow
`substring_i` links until a fully-matched entry or a negative link.
Returns the among result and, on a match, the matched length. -/
def findAmongFinish (v : List Among) : Nat → Int → Int → Option (Int × Option Int)
  | 0, _, _ => none
  | fuel+1, i, ci =>
    match v[i.toNat]? with
    | none => none
    | some w =>
      if ci ≥ (w.s.length : Int) then some (w.result, some (w.s.length : Int))
      else if w.substring_i < 0 then some (0, none)
      else findAmongFinish v fuel w.substring_i ci

def find_among (v : List Among) (ctx : Ctx) : Option (Int × Ctx) :=
  match findAmongLoop false ctx.current ctx.cursor ctx.limit v
      (v.length + 2) 0 (v.length : Int) 0 0 false with
  | none => none
  | some (i, ci) =>
    match findAmongFinish v (v.length + 1) i ci with
    | none => none
    | some (r, some len) => some (r, { ctx with cursor := ctx.cursor + len })
    | some (r, none) => some (r, ctx)

def find_among_b (v : List Among) (ctx : Ctx) : Option (Int × Ctx) :=
  match findAmongLoop true ctx.current ctx.cursor ctx.limit_backward v
      (v.length + 2) 0 (v.length : Int) 0 0 false with
  | none => none
  | some (i, ci) =>
    match findAmongFinish v (v.length + 1) i ci with
    | none => none
    | some (r, some len) => some (r, { ctx with cursor := ctx.cursor - len })
    | some (r, none) => some (r, ctx)

/-- `gopast` over `in_grouping` (forward): advance until the grouping
matches; `false` = the cursor hit the limit first. -/
def gopastIn (s : List Nat) (minN maxN : Nat) : Nat → Ctx → Option (Bool × Ctx)
  | 0, _ => none
  | fuel+1, ctx =>
    match in_grouping s minN maxN ctx with
    | none => none
    | some (true, c) => some (true, c)
    | some (false, c) =>
      if c.cursor ≥ c.limit then some (false, c)
      else gopastIn s minN maxN fuel { c with cursor := c.cursor + 1 }

def gopastOut (s : List Nat) (minN maxN : Nat) : Nat → Ctx → Option (Bool × Ctx)
  | 0, _ => none
  | fuel+1, ctx =>
    match out_grouping s minN maxN ctx with
    | none => none
    | some (true, c) => some (true, c)
    | some (false, c) =>
      if c.cursor ≥ c.limit then some (false, c)
      else gopastOut s minN maxN fuel { c with cursor := c.cursor + 1 }

/-- `gopast` over `in_grouping_b` (backward), as used by steps 1a/1b. -/
def gopastInB (s : List Nat) (minN maxN : Nat) : Nat → Ctx → Option (Bool × Ctx)
  | 0, _ => none
  | fuel+1, ctx =>
    match in_grouping_b s minN maxN ctx with
    | none => none
    | some (true, c) => some (true, c)
    | some (false, c) =>
      if c.cursor ≤ c.limit_backward then some (false, c)
      else gopastInB s minN maxN fuel { c with cursor := c.cursor - 1 }

def r_mark_regions (ctx0 : Ctx) : Option (Bool × Ctx) :=
  let ctx := { ctx0 with i_p1 := ctx0.limit, i_p2 := ctx0.limit }
  let v_1 := ctx.cursor
  let fuel := ctx.current.length + 2
  -- body of 'lab0; `Sum.inl` = break 'lab0, `Sum.inr` = fell past the or
  let body : Option Ctx :=
    match find_among a_0 ctx with
    | none => none
    | some (r, ctx1) =>
      let afterOr : Option (Ctx ⊕ Ctx) :=
        if r ≠ 0 then some (Sum.inr ctx1)
        else
          match gopastIn g_v 97 121 fuel { ctx1 with cursor := v_1 } with
          | none => none
          | some (false, c) => some (Sum.inl c)
          | some (true, c) =>
            match gopastOut g_v 97 121 fuel c with
            | none => none
            | some (false, c) => some (Sum.inl c)
            | some (true, c) => some (Sum.inr c)
      match afterOr with
      | none => none
      | some (Sum.inl c) => some c
      | some (Sum.inr c) =>
        let c := { c with i_p1 := c.cursor }
        match gopastIn g_v 97 121 fuel c with
        | none => none
        | some (false, c) => some c
        | some (true, c) =>
          match gopastOut g_v 97 121 fuel c with
          | none => none
          | some (false, c) => some c
          | some (true, c) => some { c with i_p2 := c.cursor }
  match body with
  | none => none
  | some c => some (true, { c with cursor := v_1 })

def r_shortv (ctx : Ctx) : Option (Bool × Ctx) :=
  -- first disjunct; its failures only move the cursor, which the
  -- following `cursor = limit - v_1` restores, so the second disjunct
  -- starts from the original context
  let tryB1 : Option (Option Ctx) :=
    match out_grouping_b g_v_WXY 89 121 ctx with
    | none => none
    | some (false, _) => some none
    | some (true, c) =>
      match in_grouping_b g_v 97 121 c with
      | none => none
      | some (false, _) => some none
      | some (true, c) =>
        match out_grouping_b g_v 97 121 c with
        | none => none
        | some (false, _) => some none
        | some (true, c) => some (some c)
  match tryB1 with
  | none => none
  | some (some c) => some (true, c)
  | some none =>
    match out_grouping_b g_v 97 121 ctx with
    | none => none
    | some (false, c) => some (false, c)
    | some (true, c) =>
      match in_grouping_b g_v 97 121 c with
      | none => none
      | some (false, c) => some (false, c)
      | some (true, c) =>
        if c.cursor > c.limit_backward then some (false, c)
        else some (true, c)

def r_r1 (ctx : Ctx) : Bool := ctx.i_p1 ≤ ctx.cursor

def r_r2 (ctx : Ctx) : Bool := ctx.i_p2 ≤ ctx.cursor

/-- The `goto` loop of `r_prelude` line 29: find the next `y` after a
vowel.  `Sum.inl` = ran into the limit (break 'lab4), `Sum.inr` = found,
with `bra`/`ket` set and the cursor left before the `y`. -/
def preludeGoto : Nat → Ctx → Option (Ctx ⊕ Ctx)
  | 0, _ => none
  | fuel+1, c =>
    let v_5 := c.cursor
    match in_grouping g_v 97 121 c with
    | none => none
    | some (false, c1) =>
      let c1 := { c1 with cursor := v_5 }
      if c1.cursor ≥ c1.limit then some (Sum.inl c1)
      else preludeGoto fuel { c1 with cursor := c1.cursor + 1 }
    | some (true, c1) =>
      let c1 := { c1 with bra := c1.cursor }
      match eq_s ['y'] c1 with
      | none => none
      | some (false, c2) =>
        let c2 := { c2 with cursor := v_5 }
        if c2.cursor ≥ c2.limit then some (Sum.inl c2)
        else preludeGoto fuel { c2 with cursor := c2.cursor + 1 }
      | some (true, c2) => some (Sum.inr { c2 with ket := c2.cursor, cursor := v_5 })

/-- The `repeat` loop of `r_prelude` line 29; `false` propagates the
`return false` of a failed `slice_from`. -/
def preludeRepeat (gfuel : Nat) : Nat → Ctx → Option (Bool × Ctx)
  | 0, _ => none
  | fuel+1, c =>
    let v_4 := c.cursor
    match preludeGoto gfuel c with
    | none => none
    | some (Sum.inl c1) => some (true, { c1 with cursor := v_4 })
    | some (Sum.inr c1) =>
      match slice_from ['Y'] c1 with
      | none => none
      | some (false, c2) => some (false, c2)
      | some (true, c2) => preludeRepeat gfuel fuel { c2 with b_Y_found := true }

def r_prelude (ctx0 : Ctx) : Option (Bool × Ctx) :=
  let ctx := { ctx0 with b_Y_found := false }
  let gfuel := ctx.current.length + 2
  let v_1 := ctx.cursor
  let d1 : Option (Bool × Ctx) :=
    let c := { ctx with bra := ctx.cursor }
    match eq_s ['\''] c with
    | none => none
    | some (false, c1) => some (true, c1)
    | some (true, c1) =>
      let c1 := { c1 with ket := c1.cursor }
      slice_del c1
  match d1 with
  | none => none
  | some (false, c) => some (false, c)
  | some (true, c) =>
    let c := { c with cursor := v_1 }
    let v_2 := c.cursor
    let d2 : Option (Bool × Ctx) :=
      let c1 := { c with bra := c.cursor }
      match eq_s ['y'] c1 with
      | none => none
      | some (false, c2) => some (true, c2)
      | some (true, c2) =>
        let c2 := { c2 with ket := c2.cursor }
        match slice_from ['Y'] c2 with
        | none => none
        | some (false, c3) => some (false, c3)
        | some (true, c3) => some (true, { c3 with b_Y_found := true })
    match d2 with
    | none => none
    | some (false, c) => some (false, c)
    | some (true, c) =>
      let c := { c with cursor := v_2 }
      let v_3 := c.cursor
      match preludeRepeat gfuel (c.current.length + 2) c with
      | none => none
      | some (false, c) => some (false, c)
      | some (true, c) => some (true, { c with cursor := v_3 })

/-- The `goto` loop of `r_postlude`: find the next literal `Y`. -/
def postludeGoto : Nat → Ctx → Option (Ctx ⊕ Ctx)
  | 0, _ => none
  | fuel+1, c =>
    let v_2 := c.cursor
    let c1 := { c with bra := c.cursor }
    match eq_s ['Y'] c1 with
    | none => none
    | some (true, c2) => some (Sum.inr { c2 with ket := c2.cursor, cursor := v_2 })
    | some (false, c2) =>
      let c2 := { c2 with cursor := v_2 }
      if c2.cursor ≥ c2.limit then some (Sum.inl c2)
      else postludeGoto fuel { c2 with cursor := c2.cursor + 1 }

def postludeRepeat (gfuel : Nat) : Nat → Ctx → Option (Bool × Ctx)
  | 0, _ => none
  | fuel+1, c =>
    let v_1 := c.cursor
    match postludeGoto gfuel c with
    | none => none
    | some (Sum.inl c1) => some (true, { c1 with cursor := v_1 })
    | some (Sum.inr c1) =>
      match slice_from ['y'] c1 with
      | none => none
      | some (false, c2) => some (false, c2)
      | some (true, c2) => postludeRepeat gfuel fuel c2

def r_postlude (ctx : Ctx) : Option (Bool × Ctx) :=
  if ¬ ctx.b_Y_found then some (false, ctx)
  else postludeRepeat (ctx.current.length + 2) (ctx.current.length + 2) ctx

/-- Step 1a.  The catch-all `_ => unreachable` of the Rust `match` is
`none`: it is hit whenever `find_among_b` returns an among result that the
match does not list — in particular `-1`, the result of the `ss` and `us`
entries of `a_2`. -/
def r_step_1a (ctx : Ctx) : Option (Bool × Ctx) :=
  let v_1 := ctx.limit - ctx.cursor
  let tryPart : Option (Bool × Ctx) :=
    let c := { ctx with ket := ctx.cursor }
    match find_among_b a_1 c with
    | none => none
    | some (r, c1) =>
      if r = 0 then some (true, { c1 with cursor := c1.limit - v_1 })
      else
        let c1 := { c1 with bra := c1.cursor }
        if r = 1 then slice_del c1
        else none
  match tryPart with
  | none => none
  | some (false, c) => some (false, c)
  | some (true, c) =>
    let c := { c with ket := c.cursor }
    match find_among_b a_2 c with
    | none => none
    | some (r, c) =>
      if r = 0 then some (false, c)
      else
        let c := { c with bra := c.cursor }
        if r = 1 then slice_from "ss".data c
        else if r = 2 then
          let v_2 := c.limit - c.cursor
          let cc := c.cursor - 2
          if c.limit_backward > cc ∨ cc > c.limit then
            slice_from "ie".data { c with cursor := c.limit - v_2 }
          else slice_from "i".data { c with cursor := cc }
        else if r = 3 then
          if c.cursor ≤ c.limit_backward then some (false, c)
          else
            let c := { c with cursor := c.cursor - 1 }
            match gopastInB g_v 97 121 (c.current.length + 2) c with
            | none => none
            | some (false, c1) => some (false, c1)
            | some (true, c1) => slice_del c1
        else none

def r_step_1b (ctx : Ctx) : Option (Bool × Ctx) :=
  let c := { ctx with ket := ctx.cursor }
  match find_among_b a_4 c with
  | none => none
  | some (r, c) =>
    if r = 0 then some (false, c)
    else
      let c := { c with bra := c.cursor }
      if r = 1 then
        if ¬ r_r1 c then some (false, c)
        else slice_from "ee".data c
      else if r = 2 then
        let v_1 := c.limit - c.cursor
        match gopastInB g_v 97 121 (c.current.length + 2) c with
        | none => none
        | some (false, c1) => some (false, c1)
        | some (true, c1) =>
          let c1 := { c1 with cursor := c1.limit - v_1 }
          match slice_del c1 with
          | none => none
          | some (false, c2) => some (false, c2)
          | some (true, c2) =>
            let v_3 := c2.limit - c2.cursor
            match find_among_b a_3 c2 with
            | none => none
            | some (r2, c3) =>
              if r2 = 0 then some (false, c3)
              else
                let c3 := { c3 with cursor := c3.limit - v_3 }
                if r2 = 1 then
                  let cv := c3.cursor
                  match insertS cv cv "e".data c3 with
                  | none => none
                  | some c4 => some (true, { c4 with cursor := cv })
                else if r2 = 2 then
                  let c3 := { c3 with ket := c3.cursor }
                  if c3.cursor ≤ c3.limit_backward then some (false, c3)
                  else
                    let c3 := { c3 with cursor := c3.cursor - 1 }
                    slice_del { c3 with bra := c3.cursor }
                else if r2 = 3 then
                  if c3.cursor ≠ c3.i_p1 then some (false, c3)
                  else
                    let v_4 := c3.limit - c3.cursor
                    match r_shortv c3 with
                    | none => none
                    | some (false, c4) => some (false, c4)
                    | some (true, c4) =>
                      let c4 := { c4 with cursor := c4.limit - v_4 }
                      let cv := c4.cursor
                      match insertS cv cv "e".data c4 with
                      | none => none
                      | some c5 => some (true, { c5 with cursor := cv })
                else none
      else none

def r_step_1c (ctx : Ctx) : Option (Bool × Ctx) :=
  let c := { ctx with ket := ctx.cursor }
  let orRes : Option (Option Ctx) :=
    match eq_s_b ['y'] c with
    | none => none
    | some (true, c1) => some (some c1)
    | some (false, _) =>
      match eq_s_b ['Y'] c with
      | none => none
      | some (true, c1) => some (some c1)
      | some (false, _) => some none
  match orRes with
  | none => none
  | some none => some (false, c)
  | some (some c1) =>
    let c1 := { c1 with bra := c1.cursor }
    match out_grouping_b g_v 97 121 c1 with
    | none => none
    | some (false, c2) => some (false, c2)
    | some (true, c2) =>
      if ¬ (c2.cursor > c2.limit_backward) then some (false, c2)
      else slice_from "i".data c2

def r_step_2 (ctx : Ctx) : Option (Bool × Ctx) :=
  let c := { ctx with ket := ctx.cursor }
  match find_among_b a_5 c with
  | none => none
  | some (r, c) =>
    if r = 0 then some (false, c)
    else
      let c := { c with bra := c.cursor }
      if ¬ r_r1 c then some (false, c)
      else
        if r = 1 then slice_from "tion".data c
        else if r = 2 then slice_from "ence".data c
        else if r = 3 then slice_from "ance".data c
        else if r = 4 then slice_from "able".data c
        else if r = 5 then slice_from "ent".data c
        else if r = 6 then slice_from "ize".data c
        else if r = 7 then slice_from "ate".data c
        else if r = 8 then slice_from "al".data c
        else if r = 9 then slice_from "ful".data c
        else if r = 10 then slice_from "ous".data c
        else if r = 11 then slice_from "ive".data c
        else if r = 12 then slice_from "ble".data c
        else if r = 13 then
          match eq_s_b ['l'] c with
          | none => none
          | some (false, c1) => some (false, c1)
          | some (true, c1) => slice_from "og".data c1
        else if r = 14 then slice_from "ful".data c
        else if r = 15 then slice_from "less".data c
        else if r = 16 then
          match in_grouping_b g_valid_LI 99 116 c with
          | none => none
          | some (false, c1) => some (false, c1)
          | some (true, c1) => slice_del c1
        else none

def r_step_3 (ctx : Ctx) : Option (Bool × Ctx) :=
  let c := { ctx with ket := ctx.cursor }
  match find_among_b a_6 c with
  | none => none
  | some (r, c) =>
    if r = 0 then some (false, c)
    else
      let c := { c with bra := c.cursor }
      if ¬ r_r1 c then some (false, c)
      else
        if r = 1 then slice_from "tion".data c
        else if r = 2 then slice_from "ate".data c
        else if r = 3 then slice_from "al".data c
        else if r = 4 then slice_from "ic".data c
        else if r = 5 then slice_del c
        else if r = 6 then
          if ¬ r_r2 c then some (false, c)
          else slice_del c
        else none

def r_step_4 (ctx : Ctx) : Option (Bool × Ctx) :=
  let c := { ctx with ket := ctx.cursor }
  match find_among_b a_7 c with
  | none => none
  | some (r, c) =>
    if r = 0 then some (false, c)
    else
      let c := { c with bra := c.cursor }
      if ¬ r_r2 c then some (false, c)
      else
        if r = 1 then slice_del c
        else if r = 2 then
          match eq_s_b ['s'] c with
          | none => none
          | some (true, c1) => slice_del c1
          | some (false, _) =>
            match eq_s_b ['t'] c with
            | none => none
            | some (false, c1) => some (false, c1)
            | some (true, c1) => slice_del c1
        else none

def r_step_5 (ctx : Ctx) : Option (Bool × Ctx) :=
  let c := { ctx with ket := ctx.cursor }
  match find_among_b a_8 c with
  | none => none
  | some (r, c) =>
    if r = 0 then some (false, c)
    else
      let c := { c with bra := c.cursor }
      if r = 1 then
        if r_r2 c then slice_del c
        else if ¬ r_r1 c then some (false, c)
        else
          match r_shortv c with
          | none => none
          | some (true, c1) => some (false, c1)
          | some (false, _) => slice_del c
      else if r = 2 then
        if ¬ r_r2 c then some (false, c)
        else
          match eq_s_b ['l'] c with
          | none => none
          | some (false, c1) => some (false, c1)
          | some (true, c1) => slice_del c1
      else none

/-- Exception list 1 (whole-word).  As in step 1a, the Rust catch-all is
`unreachable`, yet `a_10` holds eight entries with among result `-1`
(andes, atlas, bias, cosmos, howe, important, news, sky): matching any of
them reaches the catch-all. -/
def r_exception1 (ctx : Ctx) : Option (Bool × Ctx) :=
  let c := { ctx with bra := ctx.cursor }
  match find_among a_10 c with
  | none => none
  | some (r, c) =>
    if r = 0 then some (false, c)
    else
      let c := { c with ket := c.cursor }
      if c.cursor < c.limit then some (false, c)
      else
        if r = 1 then slice_from "ski".data c
        else if r = 2 then slice_from "sky".data c
        else if r = 3 then slice_from "die".data c
        else if r = 4 then slice_from "lie".data c
        else if r = 5 then slice_from "tie".data c
        else if r = 6 then slice_from "replic".data c
        else if r = 7 then slice_from "important".data c
        else if r = 8 then slice_from "idl".data c
        else if r = 9 then slice_from "gentl".data c
        else if r = 10 then slice_from "ugli".data c
        else if r = 11 then slice_from "earli".data c
        else if r = 12 then slice_from "onli".data c
        else if r = 13 then slice_from "singl".data c
        else none

def r_exception2 (ctx : Ctx) : Option (Bool × Ctx) :=
  let c := { ctx with ket := ctx.cursor }
  match find_among_b a_9 c with
  | none => none
  | some (r, c) =>
    if r = 0 then some (false, c)
    else
      let c := { c with bra := c.cursor }
      if c.cursor > c.limit_backward then some (false, c)
      else some (true, c)

/-- A `do call r_X` in the backward section: run the step, keep its state
changes, restore the distance from `limit`. -/
def doStepB (f : Ctx → Option (Bool × Ctx)) (c : Ctx) : Option Ctx :=
  let v := c.limit - c.cursor
  match f c with
  | none => none
  | some (_, c1) => some { c1 with cursor := c1.limit - v }

/-- The tail of `stem` shared by the exception2 and full-steps paths:
return to the forward section and run the postlude. -/
def stemFinish (c : Ctx) : Option (Bool × Ctx) :=
  let c := { c with cursor := c.limit_backward }
  let v_13 := c.cursor
  match r_postlude c with
  | none => none
  | some (_, c1) => some (true, { c1 with cursor := v_13 })

/-- The `stem` driver (porter2.rs lines 275-452). -/
def stemDriver (ctx : Ctx) : Option (Bool × Ctx) :=
  let v_1 := ctx.cursor
  match r_exception1 ctx with
  | none => none
  | some (true, c) => some (true, c)
  | some (false, c) =>
    let c := { c with cursor := v_1 }
    -- not-hop-3: words shorter than three characters are returned as-is
    let cc := c.cursor + 3
    if 0 > cc ∨ cc > c.limit then some (true, c)
    else
      let c := { c with cursor := v_1 }
      let v_3 := c.cursor
      match r_prelude c with
      | none => none
      | some (_, c) =>
        let c := { c with cursor := v_3 }
        let v_4 := c.cursor
        match r_mark_regions c with
        | none => none
        | some (_, c) =>
          let c := { c with cursor := v_4 }
          let c := { c with limit_backward := c.cursor, cursor := c.limit }
          let v_5 := c.limit - c.cursor
          match r_step_1a c with
          | none => none
          | some (_, c) =>
            let c := { c with cursor := c.limit - v_5 }
            let v_6 := c.limit - c.cursor
            match r_exception2 c with
            | none => none
            | some (true, c) => stemFinish c
            | some (false, c) =>
              let c := { c with cursor := c.limit - v_6 }
              match doStepB r_step_1b c with
              | none => none
              | some c =>
                match doStepB r_step_1c c with
                | none => none
                | some c =>
                  match doStepB r_step_2 c with
                  | none => none
                  | some c =>
                    match doStepB r_step_3 c with
                    | none => none
                    | some c =>
                      match doStepB r_step_4 c with
                      | none => none
                      | some c =>
                        match doStepB r_step_5 c with
                        | none => none
                        | some c => stemFinish c

/-- `StemmerContext::new` followed by `get`: run the whole stemmer on a
word; `none` = the Rust code panics. -/
def stemmerContextNew (word : List Char) : Option (List Char) :=
  let ctx : Ctx :=
    { current := word, cursor := 0, limit := (word.length : Int),
      limit_backward := 0, bra := 0, ket := (word.length : Int),
      b_Y_found := false, i_p1 := 0, i_p2 := 0 }
  match stemDriver ctx with
  | none => none
  | some (_, c) => some c.current


end Marian

namespace Marian

/-! Auxiliary facts about occurrences of the pattern. -/

theorem isPrefixOf_iff_append {l₁ l₂ : List Char} :
    l₁.isPrefixOf l₂ = true ↔ ∃ t, l₂ = l₁ ++ t := by
  induction l₁ generalizing l₂ with
  | nil => simp [List.isPrefixOf]
  | cons a l ih =>
    cases l₂ with
    | nil => simp [List.isPrefixOf]
    | cons b l' =>
      simp only [List.isPrefixOf, Bool.and_eq_true, beq_iff_eq, ih, List.cons_append,
        List.cons.injEq]
      constructor
      · rintro ⟨rfl, t, rfl⟩; exact ⟨t, rfl, rfl⟩
      · rintro ⟨t, rfl, rfl⟩; exact ⟨rfl, t, rfl⟩

theorem indexHtml_length : indexHtml.length = 11 := rfl

theorem mem_occIndices {u : List Char} {i : Nat} :
    i ∈ occIndices u ↔ i < u.length + 1 ∧ indexHtml.isPrefixOf (u.drop i) := by
  simp [occIndices, List.mem_filter, List.mem_range]

theorem occ_le_sub {u : List Char} {i : Nat}
    (h : indexHtml.isPrefixOf (u.drop i)) :
    i + 11 ≤ u.length ∨ u.length < i := by
  rcases isPrefixOf_iff_append.mp h with ⟨t, ht⟩
  have := congrArg List.length ht
  simp [indexHtml_length, List.length_drop] at this
  omega

theorem occ_mem_occIndices {u : List Char} {i : Nat}
    (h : indexHtml.isPrefixOf (u.drop i)) (hi : i ≤ u.length) :
    i ∈ occIndices u := by
  exact mem_occIndices.mpr ⟨by omega, h⟩

theorem isPrefixOf_iff_take {l₁ l₂ : List Char} :
    l₁.isPrefixOf l₂ = true ↔ l₂.take l₁.length = l₁ ∧ l₁.length ≤ l₂.length := by
  rw [isPrefixOf_iff_append]
  constructor
  · rintro ⟨t, rfl⟩
    refine ⟨List.take_left _ _, by simp⟩
  · rintro ⟨h, hle⟩
    refine ⟨l₂.drop l₁.length, ?_⟩
    calc l₂ = l₂.take l₁.length ++ l₂.drop l₁.length := (List.take_append_drop _ _).symm
    _ = l₁ ++ l₂.drop l₁.length := by rw [h]

/-- An occurrence position in a truncation `u.take (k+1)` is an occurrence
position in `u` itself, ending not beyond `k+1`. -/
theorem occ_of_occ_take {u : List Char} {k i : Nat}
    (h : indexHtml.isPrefixOf ((u.take (k + 1)).drop i)) :
    i + 11 ≤ k + 1 ∧ indexHtml.isPrefixOf (u.drop i) := by
  rw [isPrefixOf_iff_take] at h
  obtain ⟨htake, hlen⟩ := h
  rw [indexHtml_length] at htake hlen
  rw [List.drop_take] at htake hlen
  simp only [List.length_take, List.length_drop] at hlen
  have h11 : 11 ≤ k + 1 - i := le_trans hlen (min_le_left _ _)
  have hlenu : 11 ≤ u.length - i := le_trans hlen (min_le_right _ _)
  constructor
  · omega
  · rw [isPrefixOf_iff_take, indexHtml_length]
    refine ⟨?_, by simpa [List.length_drop] using hlenu⟩
    rw [List.take_take] at htake
    rwa [min_eq_left h11] at htake

/-- Appending a trailing `'/'` to a URL with no occurrence of `"/index.html"`
creates no occurrence (the pattern does not end in `'/'`). -/
theorem occIndices_append_slash {u : List Char} (h : occIndices u = []) :
    occIndices (u ++ ['/']) = [] := by
  rw [List.eq_nil_iff_forall_not_mem]
  intro i hi
  rw [mem_occIndices] at hi
  obtain ⟨hilt, hocc⟩ := hi
  rw [isPrefixOf_iff_take, indexHtml_length] at hocc
  obtain ⟨htake, hlen⟩ := hocc
  simp only [List.length_drop, List.length_append, List.length_singleton] at hlen
  by_cases hle : i + 11 ≤ u.length
  · -- the occurrence lies inside `u`: contradiction with `h`
    have hdrop : (u ++ ['/']).drop i = u.drop i ++ ['/'] := by
      rw [List.drop_append_of_le_length (by omega)]
    rw [hdrop, List.take_append_eq_append_take] at htake
    have hlen' : (u.drop i).take 11 = u.drop i ∨ ((u.drop i).take 11).length = 11 := by
      right; simp [List.length_take, List.length_drop]; omega
    have htk : (11 : Nat) - (u.drop i).length = 0 := by
      simp [List.length_drop]; omega
    rw [htk] at htake
    simp only [List.take_zero, List.append_nil] at htake
    have : i ∈ occIndices u := by
      refine occ_mem_occIndices ?_ (by omega)
      rw [isPrefixOf_iff_take, indexHtml_length]
      exact ⟨htake, by simp [List.length_drop]; omega⟩
    simp [h] at this
  · -- the occurrence would have to end exactly at the appended slash
    have hieq : i + 11 = u.length + 1 := by omega
    have hdrop : (u ++ ['/']).drop i = u.drop i ++ ['/'] := by
      rw [List.drop_append_of_le_length (by omega)]
    have hlendrop : (u.drop i).length = 10 := by simp [List.length_drop]; omega
    rw [hdrop] at htake
    have : (u.drop i ++ ['/']).take 11 = u.drop i ++ ['/'] := by
      apply List.take_of_length_le
      simp [hlendrop]
    rw [this] at htake
    have hlast := congrArg List.getLast? htake
    rw [List.getLast?_concat] at hlast
    have : indexHtml.getLast? = some 'l' := rfl
    rw [this] at hlast
    simp at hlast

/-- Under `rfind`'s result `k`, the truncated URL has no remaining occurrence
provided `u` had at most one occurrence in total. -/
theorem occIndices_take_eq_nil {u : List Char} {k : Nat}
    (hr : rfindIndexHtml u = some k) (h1 : (occIndices u).length ≤ 1) :
    occIndices (u.take (k + 1)) = [] := by
  have hk : k ∈ occIndices u := by
    have := List.max?_mem (fun a b : Nat => max_choice a b) hr
    exact this
  rw [List.eq_nil_iff_forall_not_mem]
  intro i hi
  rw [mem_occIndices] at hi
  obtain ⟨-, hocc⟩ := hi
  obtain ⟨hle, hocc'⟩ := occ_of_occ_take hocc
  have hiu : i ∈ occIndices u := by
    refine occ_mem_occIndices hocc' ?_
    have := (mem_occIndices.mp hk).2
    rcases occ_le_sub this with h' | h'
    · omega
    · exact absurd (mem_occIndices.mp hk).1 (by omega)
  have hne : i ≠ k := by omega
  -- two distinct members contradict length ≤ 1
  have hnd : (occIndices u).Nodup := List.Nodup.filter _ (List.nodup_range _)
  have h2 : 1 < (occIndices u).toFinset.card := by
    rw [Finset.one_lt_card]
    exact ⟨i, List.mem_toFinset.mpr hiu, k, List.mem_toFinset.mpr hk, hne⟩
  have := List.toFinset_card_le (occIndices u)
  omega

/-- The truncated URL ends with `'/'` (the pattern starts with `'/'`). -/
theorem take_occ_getLast {u : List Char} {k : Nat}
    (hr : rfindIndexHtml u = some k) :
    (u.take (k + 1)).getLast? = some '/' := by
  have hk : k ∈ occIndices u := List.max?_mem (fun a b : Nat => max_choice a b) hr
  obtain ⟨hklt, hocc⟩ := mem_occIndices.mp hk
  rw [isPrefixOf_iff_append] at hocc
  obtain ⟨t, ht⟩ := hocc
  have hget : u[k]? = some '/' := by
    rw [← List.head?_drop, ht]
    rfl
  have hklen : k < u.length := by
    rcases List.getElem?_eq_some_iff.mp hget with ⟨h', -⟩
    exact h'
  rw [List.take_succ, hget]
  simp

/-- Strings with no occurrence are unchanged except for the trailing slash. -/
theorem rfind_eq_none_of_occ_nil {u : List Char} (h : occIndices u = []) :
    rfindIndexHtml u = none := by
  rw [rfindIndexHtml, List.max?_eq_none_iff]
  exact h

theorem normalize_url_of_occ_nil {u : List Char} (h : occIndices u = [])
    (hend : u.getLast? = some '/') : normalize_url u = u := by
  rw [normalize_url, rfind_eq_none_of_occ_nil h]
  simp [hend]

/-- C2, counterexample: `normalize_url` is *not* idempotent.  The URL
`"/index.html/index.html"` normalizes to `"/index.html/"`, which normalizes
again to `"/"`. -/
theorem normalize_url_not_idempotent :
    normalize_url (normalize_url "/index.html/index.html".data) ≠
      normalize_url "/index.html/index.html".data := by
  decide

/-- C2, amended: `normalize_url` is idempotent on every URL in which
`"/index.html"` occurs at most once (which includes every URL the spec's
examples exercise). -/
theorem normalize_url_idempotent_of_single_occ (u : List Char)
    (h : (occIndices u).length ≤ 1) :
    normalize_url (normalize_url u) = normalize_url u := by
  rcases hr : rfindIndexHtml u with - | k
  · -- no occurrence: the first pass only possibly appends a slash
    have hocc : occIndices u = [] := by
      have hr' : (occIndices u).max? = none := hr
      exact List.max?_eq_none_iff.mp hr'
    have hN : normalize_url u = if u.getLast? = some '/' then u else u ++ ['/'] := by
      rw [normalize_url, hr]
    by_cases hend : u.getLast? = some '/'
    · rw [hN, if_pos hend]
      exact normalize_url_of_occ_nil hocc hend
    · rw [hN, if_neg hend]
      refine normalize_url_of_occ_nil (occIndices_append_slash hocc) ?_
      rw [List.getLast?_concat]
  · -- one occurrence at k: the first pass truncates just past its slash
    have hocc : occIndices (u.take (k + 1)) = [] := occIndices_take_eq_nil hr h
    have hend : (u.take (k + 1)).getLast? = some '/' := take_occ_getLast hr
    have hN : normalize_url u = u.take (k + 1) := by
      rw [normalize_url, hr]
      simp [hend]
    rw [hN]
    exact normalize_url_of_occ_nil hocc hend

/-- Witness for the amended C2 theorem at the spec's own example URL. -/
theorem normalize_url_idempotent_witness :
    (occIndices "https://x/y/index.html".data).length ≤ 1 ∧
      normalize_url (normalize_url "https://x/y/index.html".data) =
        normalize_url "https://x/y/index.html".data :=
  ⟨by decide, normalize_url_idempotent_of_single_occ _ (by decide)⟩

/-! ### Tokenizer (src/stemmer.rs)

`tokenize` splits on runs of characters outside `[\w$%.]`, strips one
leading and one trailing dot, lowercases, folds atomic phrases, expands the
bare `$` token, and (in fuzzy mode) additionally splits on `'.'`.
`\w` is modelled as ASCII alphanumeric or underscore (all inputs the
engine's claims exercise are ASCII). -/

def STOP_WORDS : List String :=
  ["a", "able", "about", "across", "after", "all", "almost", "also", "am",
   "among", "an", "and", "any", "are", "as", "at", "be", "because", "been",
   "but", "by", "can", "cannot", "could", "dear", "did", "do", "does",
   "either", "else", "ever", "every", "for", "from", "got", "had", "has",
   "have", "he", "her", "hers", "him", "his", "how", "however", "i", "i.e.",
   "if", "important", "in", "into", "is", "it", "its", "just", "may", "me",
   "might", "most", "must", "my", "neither", "no", "nor", "of", "off",
   "often", "on", "only", "or", "other", "our", "own", "rather", "said",
   "say", "says", "she", "should", "since", "so", "some", "than", "that",
   "the", "their", "them", "then", "there", "these", "they", "this", "tis",
   "to", "too", "twas", "us", "wants", "was", "we", "were", "what", "where",
   "which", "while", "who", "whom", "why", "will", "with", "would", "yet",
   "you", "your", "e.g."]

def is_stop_word (word : String) : Bool := STOP_WORDS.contains word

def ATOMIC_PHRASE_MAP : List (String × String) :=
  [("ops", "manager"), ("cloud", "manager")]

def ATOMIC_PHRASES : List String := ATOMIC_PHRASE_MAP.map (fun p => p.1 ++ " " ++ p.2)

/-- A character the token-separator regex `[^\w$%.]+` does *not* split on. -/
def isWordChar (c : Char) : Bool :=
  c.isAlphanum || c = '_' || c = '$' || c = '%' || c = '.'

/- Split on maximal runs of non-word characters (keeping the empty pieces a
leading/trailing separator run produces, exactly as `Regex::split` does). -/
mutual

/-- Accumulate the current component until a separator run begins. -/
def splitComponentsAux : List Char → List Char → List (List Char)
  | [], cur => [cur.reverse]
  | c :: rest, cur =>
    if isWordChar c then splitComponentsAux rest (c :: cur)
    else cur.reverse :: splitSkipSeparators rest

/-- Skip the remainder of a separator run, then start the next component. -/
def splitSkipSeparators : List Char → List (List Char)
  | [] => [[]]
  | c :: rest =>
    if isWordChar c then splitComponentsAux rest [c]
    else splitSkipSeparators rest

end

def splitComponents (l : List Char) : List (List Char) := splitComponentsAux l []

/-- `PAT_BAD_CHARS.replace_all`: strip one leading and one trailing dot. -/
def stripBadChars (l : List Char) : List Char :=
  let l1 := if l.head? = some '.' then l.tail else l
  if l1.getLast? = some '.' then l1.dropLast else l1

/-- `str::split('.')`: split at every single dot. -/
def splitChar (c : Char) : List Char → List (List Char)
  | [] => [[]]
  | d :: rest =>
    if d = c then [] :: splitChar c rest
    else
      match splitChar c rest with
      | [] => [[d]]
      | comp :: comps => (d :: comp) :: comps

/-- What the token loop pushes for one non-`$`, non-fused component. -/
def emitToken (fuzzy : Bool) (t : String) : List String :=
  (if 1 < t.length then [t] else []) ++
    (if fuzzy then
      (((splitChar '.' t.data).map (fun l => String.mk l)).filter
        (fun s => 1 < s.length))
    else [])

/-- The `for i in 0..components.len()` loop of `tokenize`, with the
skip-next flag realized by consuming two components on atomic-phrase fusion. -/
def tokenizeLoop (fuzzy : Bool) : List String → List String
  | [] => []
  | [token] =>
    if token = "$" then ["positional", "operator"]
    else emitToken fuzzy token
  | token :: next :: rest' =>
    if token = "$" then
      "positional" :: "operator" :: tokenizeLoop fuzzy (next :: rest')
    else
      match ATOMIC_PHRASE_MAP.lookup token with
      | some m =>
        if next = m then (token ++ " " ++ m) :: tokenizeLoop fuzzy rest'
        else emitToken fuzzy token ++ tokenizeLoop fuzzy (next :: rest')
      | none => emitToken fuzzy token ++ tokenizeLoop fuzzy (next :: rest')

/-- `tokenize` from src/stemmer.rs. -/
def tokenize (text : String) (fuzzy : Bool) : List String :=
  tokenizeLoop fuzzy
    ((splitComponents text.data).map
      (fun c => String.mk ((stripBadChars c).map Char.toLower)))

theorem splitChar_of_not_mem {c : Char} {l : List Char} (h : c ∉ l) :
    splitChar c l = [l] := by
  induction l with
  | nil => rfl
  | cons d rest ih =>
    rw [splitChar]
    have hd : ¬d = c := fun hdc => h (by simp [hdc])
    rw [if_neg hd, ih (fun hm => h (List.mem_cons_of_mem _ hm))]

theorem string_mk_data (s : String) : String.mk s.data = s := rfl

theorem emitToken_fuzzy_no_dot {t : String} (h3 : 1 < t.length)
    (h4 : '.' ∉ t.data) : emitToken true t = [t, t] := by
  rw [emitToken, if_pos h3, if_pos rfl, splitChar_of_not_mem h4]
  simp [string_mk_data, List.filter, h3]

/-- C9: in fuzzy mode, a component that is not the bare `"$"`, does not fuse
with its successor into an atomic phrase, has length greater than one, and
contains no `'.'`, is emitted twice in immediate succession: once by the
plain emission step, once again by the dot-splitting step. -/
theorem tokenize_fuzzy_doubles (t : String) (rest : List String)
    (h1 : t ≠ "$")
    (h2 : ATOMIC_PHRASE_MAP.lookup t = none ∨
      ∃ m, ATOMIC_PHRASE_MAP.lookup t = some m ∧ rest.head? ≠ some m)
    (h3 : 1 < t.length) (h4 : '.' ∉ t.data) :
    tokenizeLoop true (t :: rest) = t :: t :: tokenizeLoop true rest := by
  have hemit := emitToken_fuzzy_no_dot h3 h4
  cases rest with
  | nil => simp [tokenizeLoop, h1, hemit]
  | cons next rest' =>
    rcases h2 with hnone | ⟨m, hm, hne⟩
    · simp [tokenizeLoop, h1, hnone, hemit]
    · have hnm : ¬next = m := by
        intro heq; exact hne (by simp [heq])
      simp [tokenizeLoop, h1, hm, hnm, hemit]

/-- Witness for C9 at the claim's own example: `tokenize("fox", true)`
yields `["fox", "fox"]`. -/
theorem tokenize_fuzzy_doubles_witness :
    tokenizeLoop true ["fox"] = ["fox", "fox"] ∧
      tokenize "fox" true = ["fox", "fox"] :=
  ⟨by rw [tokenize_fuzzy_doubles "fox" [] (by decide) (Or.inl (by decide))
      (by decide) (by decide)]; rfl, by decide⟩

/-! ### Phrase checking (src/query.rs) -/

/-- `have_contiguous_path`: is there a choice of one number per level of
`tree`, in sequential (+1) order, starting from `last_candidate + 1` if
`last_candidate` is given? -/
def have_contiguous_path (tree : List (List Nat)) (last_candidate : Option Nat) :
    Bool :=
  match tree with
  | [] => true
  | t0 :: rest =>
    t0.any (fun element =>
      (match last_candidate with
       | none => true
       | some e => element == e + 1) && have_contiguous_path rest (some element))

/-- The path-building prefix of `have_contiguous_keywords`: one position list
per phrase component, `none` as soon as a component is missing. -/
def collectPath (phrase_components : List String)
    (keywords : List (String × List Nat)) : Option (List (List Nat)) :=
  match phrase_components with
  | [] => some []
  | c :: rest =>
    match keywords.lookup c with
    | some positions => (collectPath rest keywords).map (fun path => positions :: path)
    | none => none

/-- `have_contiguous_keywords` from src/query.rs. -/
def have_contiguous_keywords (phrase_components : List String)
    (keywords : List (String × List Nat)) : Bool :=
  match collectPath phrase_components keywords with
  | none => false
  | some path => have_contiguous_path path none

/-- `Query::check_phrases`: every stemmed phrase must have contiguous
keywords in the supplied token-position map. -/
def check_phrases (stemmed_phrases : List (List String))
    (tokens : List (String × List Nat)) : Bool :=
  stemmed_phrases.all (fun p => have_contiguous_keywords p tokens)

/-- The specification-side notion: positions `s, s+1, s+2, …` with the
`i`-th one drawn from the `i`-th position list. -/
def ConsecutiveFrom (tree : List (List Nat)) (s : Nat) : Prop :=
  ∀ i (h : i < tree.length), s + i ∈ tree.get ⟨i, h⟩

theorem consecutiveFrom_cons {t0 : List Nat} {rest : List (List Nat)} {s : Nat} :
    ConsecutiveFrom (t0 :: rest) s ↔ s ∈ t0 ∧ ConsecutiveFrom rest (s + 1) := by
  constructor
  · intro h
    refine ⟨by simpa using h 0 (by simp), fun i hi => ?_⟩
    have := h (i + 1) (by simpa using hi)
    simpa [Nat.add_assoc, Nat.add_comm 1 i] using this
  · rintro ⟨h0, h⟩ i hi
    cases i with
    | zero => simpa using h0
    | succ j =>
      have := h j (by simpa using hi)
      simpa [Nat.add_assoc, Nat.add_comm 1 j] using this

theorem have_contiguous_path_some {tree : List (List Nat)} {e : Nat} :
    have_contiguous_path tree (some e) = true ↔ ConsecutiveFrom tree (e + 1) := by
  induction tree generalizing e with
  | nil =>
    simp only [have_contiguous_path, true_iff]
    intro i hi; simp at hi
  | cons t0 rest ih =>
    rw [have_contiguous_path, List.any_eq_true]
    rw [consecutiveFrom_cons]
    constructor
    · rintro ⟨x, hx, hcond⟩
      simp only [Bool.and_eq_true, beq_iff_eq] at hcond
      obtain ⟨hxe, hrest⟩ := hcond
      subst hxe
      exact ⟨hx, ih.mp hrest⟩
    · rintro ⟨h0, hrest⟩
      exact ⟨e + 1, h0, by simp [ih.mpr hrest]⟩

theorem have_contiguous_path_none {tree : List (List Nat)} :
    have_contiguous_path tree none = true ↔ ∃ s, ConsecutiveFrom tree s := by
  cases tree with
  | nil =>
    simp only [have_contiguous_path, true_iff]
    exact ⟨0, fun i hi => by simp at hi⟩
  | cons t0 rest =>
    rw [have_contiguous_path, List.any_eq_true]
    constructor
    · rintro ⟨x, hx, hcond⟩
      simp only [Bool.and_eq_true] at hcond
      exact ⟨x, consecutiveFrom_cons.mpr ⟨hx, have_contiguous_path_some.mp hcond.2⟩⟩
    · rintro ⟨s, hs⟩
      rw [consecutiveFrom_cons] at hs
      exact ⟨s, hs.1, by simp [have_contiguous_path_some.mpr hs.2]⟩

theorem collectPath_eq_none {p : List String} {kw : List (String × List Nat)} :
    collectPath p kw = none ↔ ∃ c ∈ p, kw.lookup c = none := by
  induction p with
  | nil => simp [collectPath]
  | cons c rest ih =>
    rw [collectPath]
    cases hl : kw.lookup c with
    | none => exact iff_of_true rfl ⟨c, List.mem_cons_self _ _, hl⟩
    | some ps =>
      cases hr : collectPath rest kw with
      | none =>
        rcases ih.mp hr with ⟨c', hc', hl'⟩
        exact iff_of_true rfl ⟨c', List.mem_cons_of_mem _ hc', hl'⟩
      | some path =>
        refine iff_of_false (by simp) ?_
        rintro ⟨c', hc', hl'⟩
        rcases List.mem_cons.mp hc' with rfl | hc'
        · rw [hl] at hl'; exact Option.noConfusion hl'
        · have hn : collectPath rest kw = none := ih.mpr ⟨c', hc', hl'⟩
          rw [hr] at hn; exact Option.noConfusion hn

theorem collectPath_eq_some {p : List String} {kw : List (String × List Nat)}
    {path : List (List Nat)} (h : collectPath p kw = some path) :
    path = p.map (fun c => (kw.lookup c).getD []) := by
  induction p generalizing path with
  | nil => simp [collectPath] at h; simp [← h]
  | cons c rest ih =>
    rw [collectPath] at h
    cases hl : kw.lookup c with
    | none => rw [hl] at h; exact Option.noConfusion h
    | some ps =>
      rw [hl] at h
      cases hr : collectPath rest kw with
      | none => rw [hr] at h; exact Option.noConfusion h
      | some path' =>
        rw [hr] at h
        have h' : ps :: path' = path := by simpa using h
        subst h'
        simp [List.map_cons, hl, ih hr]

/-- C5 per-phrase characterization. -/
theorem have_contiguous_keywords_iff (p : List String)
    (kw : List (String × List Nat)) :
    have_contiguous_keywords p kw = true ↔
      (∀ c ∈ p, (kw.lookup c).isSome) ∧
        ∃ s : Nat, ∀ i (h : i < p.length),
          s + i ∈ (kw.lookup (p.get ⟨i, h⟩)).getD [] := by
  rw [have_contiguous_keywords]
  cases hcp : collectPath p kw with
  | none =>
    refine iff_of_false (by simp) ?_
    rintro ⟨hall, -⟩
    rcases collectPath_eq_none.mp hcp with ⟨c, hc, hl⟩
    have := hall c hc
    rw [hl] at this; exact Bool.noConfusion this
  | some path =>
    have hpath := collectPath_eq_some hcp
    have hall : ∀ c ∈ p, (kw.lookup c).isSome := by
      intro c hc
      cases hl : kw.lookup c with
      | none =>
        have : collectPath p kw = none := collectPath_eq_none.mpr ⟨c, hc, hl⟩
        rw [hcp] at this; exact Option.noConfusion this
      | some ps => rfl
    rw [have_contiguous_path_none]
    subst hpath
    constructor
    · rintro ⟨s, hs⟩
      refine ⟨hall, s, fun i hi => ?_⟩
      have := hs i (by simpa using hi)
      simpa [List.get_eq_getElem, List.getElem_map] using this
    · rintro ⟨-, s, hs⟩
      refine ⟨s, fun i hi => ?_⟩
      have := hs i (by simpa using hi)
      simpa [List.get_eq_getElem, List.getElem_map] using this

/-- C5: the phrase checker returns `true` iff, for every stemmed phrase,
every phrase component is present in the token-position map and some choice
of one position per component is strictly consecutive (each next position
equals the previous plus one). -/
theorem check_phrases_iff (stemmed_phrases : List (List String))
    (tokens : List (String × List Nat)) :
    check_phrases stemmed_phrases tokens = true ↔
      ∀ p ∈ stemmed_phrases,
        (∀ c ∈ p, (tokens.lookup c).isSome) ∧
          ∃ s : Nat, ∀ i (h : i < p.length),
            s + i ∈ (tokens.lookup (p.get ⟨i, h⟩)).getD [] := by
  rw [check_phrases, List.all_eq_true]
  constructor
  · intro h p hp
    exact (have_contiguous_keywords_iff p tokens).mp (h p hp)
  · intro h p hp
    exact (have_contiguous_keywords_iff p tokens).mpr (h p hp)

/-! ### The index data model (src/fts.rs)

`HashMap`s are modelled as association lists with unique keys: `alInsert`
realizes `HashMap::insert` (the resulting key order stands in for the
unspecified hash-iteration order).  `f32` constants stored in the index
(field weights, correlation closenesses, length weights) are modelled as
`ℚ`; the logarithmic scoring arithmetic lives in `ℝ`. -/

def alInsert {K V : Type} [BEq K] (m : List (K × V)) (k : K) (v : V) :
    List (K × V) :=
  (k, v) :: m.filter (fun p => !(p.1 == k))

theorem lookup_alInsert_self {K V : Type} [BEq K] [LawfulBEq K]
    (m : List (K × V)) (k : K) (v : V) : (alInsert m k v).lookup k = some v := by
  simp [alInsert, List.lookup]

theorem lookup_filter_ne {K V : Type} [BEq K] [LawfulBEq K]
    (m : List (K × V)) (k k' : K) (h : ¬k' = k) :
    (m.filter (fun p => !(p.1 == k))).lookup k' = m.lookup k' := by
  induction m with
  | nil => rfl
  | cons a rest ih =>
    by_cases ha : a.1 = k
    · have h1 : (a.1 == k) = true := beq_iff_eq.mpr ha
      have h2 : (k' == a.1) = false := by
        rw [beq_eq_false_iff_ne]; intro he; exact h (ha ▸ he)
      simp [List.filter, h1, List.lookup, h2, ih]
    · have h1 : (a.1 == k) = false := by rwa [beq_eq_false_iff_ne]
      simp only [List.filter, h1, Bool.not_false, List.lookup]
      cases hk : k' == a.1
      · simp [List.lookup, hk, ih]
      · simp [List.lookup, hk]

theorem lookup_alInsert_ne {K V : Type} [BEq K] [LawfulBEq K]
    (m : List (K × V)) (k k' : K) (v : V) (h : ¬k' = k) :
    (alInsert m k v).lookup k' = m.lookup k' := by
  have h2 : (k' == k) = false := by rwa [beq_eq_false_iff_ne]
  simp only [alInsert, List.lookup, h2]
  exact lookup_filter_ne m k k' h

/-- One stemmed term's global entry (fts.rs `TermEntry`).  The `registered`
field is a proof-only ghost log of the `(field, document)` pairs passed to
`register`; the Rust struct keeps only the aggregates `docs` and
`times_appeared`. -/
structure TermEntry where
  docs : List Nat
  positions : List (Nat × List Nat)
  times_appeared : List (String × Nat)
  registered : List (String × Nat)
deriving DecidableEq

def TermEntry.new : TermEntry := ⟨[], [], [], []⟩

def TermEntry.register (e : TermEntry) (field_name : String) (docid : Nat) :
    TermEntry :=
  { e with
    docs := e.docs ++ [docid],
    times_appeared := alInsert e.times_appeared field_name
      ((e.times_appeared.lookup field_name).getD 0 + 1),
    registered := e.registered ++ [(field_name, docid)] }

def TermEntry.add_token_position (e : TermEntry) (docid token_id : Nat) :
    TermEntry :=
  { e with
    positions := alInsert e.positions docid
      ((e.positions.lookup docid).getD [] ++ [token_id]) }

/-- Per-document, per-field statistics (fts.rs `DocumentEntry`). -/
structure DocumentEntry where
  len : Nat
  term_frequencies : List (String × Nat)
deriving DecidableEq

/-- A named text channel with weights (fts.rs `Field`). -/
structure Field where
  name : String
  documents : List (Nat × DocumentEntry)
  weight : ℚ
  total_tokens : Nat
  length_weight : ℚ
deriving DecidableEq

def Field.new (name : String) (weight : ℚ) : Field :=
  ⟨name, [], weight, 0, 0⟩

/-- fts.rs `Field::compute_length_weight`: documents per total unique terms. -/
def Field.compute_length_weight (f : Field) : Field :=
  let n_terms := (f.documents.map (fun p => p.2.term_frequencies.length)).sum
  { f with length_weight := mkRat f.documents.length n_terms }

/-- A searchable document (fts.rs `Document`). -/
structure Document where
  _id : Nat
  url : String
  title : String
  preview : String
  include_in_global_search : Bool
  search_property : String
deriving DecidableEq

instance : Inhabited Document := ⟨⟨0, "", "", "", false, ""⟩⟩

/-- A manifest document (manifest.rs `ManifestDocument`). -/
structure ManifestDocument where
  slug : String
  title : String
  tags : String
  headings : List String
  text : String
  preview : String
  links : List String
  url : String

/-- manifest.rs `ManifestDocument::get`. -/
def ManifestDocument.get (d : ManifestDocument) (key : String) : Option String :=
  if key = "title" then some d.title
  else if key = "text" then some d.text
  else if key = "headings" then some (" ".intercalate d.headings)
  else if key = "tags" then some d.tags
  else none

/-- `str::starts_with`, at the character level (all engine tokens are
ASCII, where this coincides with the byte-level Rust test). -/
def strIsPrefixOf (p s : String) : Bool := p.data.isPrefixOf s.data

/-- trie.rs `Trie::insert`: add `id` to the doc-ID set stored at `token`. -/
def trieInsert (t : List (String × List Nat)) (token : String) (id : Nat) :
    List (String × List Nat) :=
  match t.lookup token with
  | some ids => alInsert t token (if id ∈ ids then ids else ids ++ [id])
  | none => alInsert t token [id]

/-- trie.rs `Trie::search`: every key starting with `term`, grouped as a map
from doc ID to the list of full keys stored under that doc. -/
def trieSearch (t : List (String × List Nat)) (term : String) :
    List (Nat × List String) :=
  t.foldl
    (fun acc p =>
      if strIsPrefixOf term p.1 then
        p.2.foldl
          (fun acc2 docId =>
            alInsert acc2 docId ((acc2.lookup docId).getD [] ++ [p.1]))
          acc
      else acc)
    []

/-- The inverted index (fts.rs `FTSIndex`); timestamps and the manifest-name
set are irrelevant to the indexing/ranking claims and omitted. -/
structure FTSIndex where
  fields : List Field
  trie : List (String × List Nat)
  terms : List (String × TermEntry)
  doc_id : Nat
  term_id : Nat
  documents : List Document
  link_graph : List (String × List String)
  inverse_link_graph : List (String × List String)
  url_to_id : List (String × Nat)
  id_to_url : List (Nat × String)
  incoming_neighbors : List (Nat × List Nat)
  outgoing_neighbors : List (Nat × List Nat)
  word_correlations : List (String × List (String × ℚ))
  search_property_aliases : List (String × String)

def FTSIndex.new (fields : List Field) : FTSIndex :=
  ⟨fields, [], [], 0, 0, [], [], [], [], [], [], [], [], []⟩

def normalizeUrlString (s : String) : String := String.mk (normalize_url s.data)

/-- fts.rs `FTSIndex::correlate_word` (the word may be several tokens; both
sides are stemmed before storage). -/
def FTSIndex.correlate_word (idx : FTSIndex) (stem : String → String)
    (word synonym : String) (closeness : ℚ) : FTSIndex :=
  let parts := tokenize word false
  let word := " ".intercalate (parts.map stem)
  let synonym := stem synonym
  let entry := (idx.word_correlations.lookup word).getD []
  let pair := (synonym, closeness)
  let entry := if pair ∈ entry then entry else entry ++ [pair]
  { idx with word_correlations := alInsert idx.word_correlations word entry }

def FTSIndex.alias_search_property (idx : FTSIndex)
    (aliasName search_property : String) : FTSIndex :=
  { idx with search_property_aliases :=
      alInsert idx.search_property_aliases aliasName search_property }

/-- The mutable state threaded through `FTSIndex::add`'s token loop. -/
structure AddTokenState where
  terms : List (String × TermEntry)
  trie : List (String × List Nat)
  term_id : Nat
  term_frequencies : List (String × Nat)
  number_of_tokens : Nat
  correlations : List (String × Nat × ℚ)

/-- One iteration of the `for token in &tokens` loop in `FTSIndex::add`.
The correlation-prefix branch both picks the (possibly unstemmed) token and
appends the correlation triple; the `count == 0` branch both inserts into
the trie and registers the term — each pair of same-condition updates is
written as two conditionals here. -/
def processToken (stem : String → String) (field_name : String) (doc_id : Nat)
    (st : AddTokenState) (token0 : String) : AddTokenState :=
  if is_stop_word token0 then st
  else
    let token :=
      if strIsPrefixOf "%%" token0 then token0
      else if strIsPrefixOf "$" token0 || strIsPrefixOf "%" token0 then token0
      else stem token0
    let correlations :=
      if strIsPrefixOf "%%" token0 then st.correlations ++ [(token0, 2, mkRat 9 10)]
      else if strIsPrefixOf "$" token0 || strIsPrefixOf "%" token0 then
        st.correlations ++ [(token0, 1, mkRat 9 10)]
      else st.correlations
    let term_id := st.term_id + 1
    let entry := (st.terms.lookup token).getD TermEntry.new
    let count := (st.term_frequencies.lookup token).getD 0
    let term_frequencies := alInsert st.term_frequencies token (count + 1)
    let trie := if count = 0 then trieInsert st.trie token doc_id else st.trie
    let entry := if count = 0 then entry.register field_name doc_id else entry
    let entry := entry.add_token_position doc_id term_id
    { terms := alInsert st.terms token entry,
      trie := trie,
      term_id := term_id,
      term_frequencies := term_frequencies,
      number_of_tokens := st.number_of_tokens + 1,
      correlations := correlations }

/-- The state shared across the `for field in &mut self.fields` loop. -/
structure AddFieldState where
  terms : List (String × TermEntry)
  trie : List (String × List Nat)
  term_id : Nat
  correlations : List (String × Nat × ℚ)

/-- One iteration of the field loop in `FTSIndex::add`. -/
def processField (stem : String → String) (document : ManifestDocument)
    (doc_id : Nat) (acc : AddFieldState × List Field) (field : Field) :
    AddFieldState × List Field :=
  match document.get field.name with
  | none => (acc.1, acc.2 ++ [field])
  | some text =>
    if text.length = 0 then (acc.1, acc.2 ++ [field])
    else
      let tokens := tokenize text true
      let st0 : AddTokenState :=
        ⟨acc.1.terms, acc.1.trie, acc.1.term_id, [], 0, acc.1.correlations⟩
      let st := tokens.foldl (processToken stem field.name doc_id) st0
      -- After each field, bump by one to prevent accidental adjacency.
      let field' :=
        { field with
          total_tokens := field.total_tokens + st.number_of_tokens,
          documents := alInsert field.documents doc_id
            ⟨st.number_of_tokens, st.term_frequencies⟩ }
      (⟨st.terms, st.trie, st.term_id + 1, st.correlations⟩, acc.2 ++ [field'])

/-- fts.rs `FTSIndex::add`. -/
def FTSIndex.add (stem : String → String) (idx : FTSIndex)
    (document : ManifestDocument) (include_in_global_search : Bool)
    (search_property : String) : FTSIndex :=
  let doc_id := idx.doc_id
  let url := normalizeUrlString document.url
  let links := document.links.map normalizeUrlString
  let inverse_link_graph := links.foldl
    (fun g href => alInsert g href ((g.lookup href).getD [] ++ [url]))
    idx.inverse_link_graph
  let st0 : AddFieldState := ⟨idx.terms, idx.trie, idx.term_id, []⟩
  let stf := idx.fields.foldl (processField stem document doc_id) (st0, [])
  let idx' : FTSIndex :=
    { idx with
      fields := stf.2,
      trie := stf.1.trie,
      terms := stf.1.terms,
      doc_id := idx.doc_id + 1,
      term_id := stf.1.term_id,
      documents := idx.documents ++
        [⟨doc_id, url, document.title, document.preview,
          include_in_global_search, search_property⟩],
      link_graph := alInsert idx.link_graph url links,
      inverse_link_graph := inverse_link_graph,
      url_to_id := alInsert idx.url_to_id url doc_id,
      id_to_url := alInsert idx.id_to_url doc_id url }
  stf.1.correlations.foldl
    (fun i c =>
      i.correlate_word stem (String.mk (c.1.data.drop c.2.1)) c.1 c.2.2)
    idx'

/-- fts.rs `FTSIndex::finish`: per-field length weights plus both
integer-keyed adjacency maps (deduplicated, as the `HashSet` drains are). -/
def FTSIndex.finish (idx : FTSIndex) : FTSIndex :=
  let fields := idx.fields.map Field.compute_length_weight
  let neighbors := idx.id_to_url.foldl
    (fun (acc : List (Nat × List Nat) × List (Nat × List Nat)) p =>
      let outgoing :=
        (((idx.link_graph.lookup p.2).getD []).filterMap
          (fun l => idx.url_to_id.lookup l)).dedup
      let incoming :=
        (((idx.inverse_link_graph.lookup p.2).getD []).filterMap
          (fun l => idx.url_to_id.lookup l)).dedup
      (alInsert acc.1 p.1 outgoing, alInsert acc.2 p.1 incoming))
    ([], [])
  { idx with
    fields := fields,
    outgoing_neighbors := neighbors.1,
    incoming_neighbors := neighbors.2 }

/-! ### The search pipeline (src/fts.rs `FTSIndex::search`)

A parsed query (query.rs `Query`): `terms` is the query's term *set*; the
list order stands for the unspecified `HashSet` iteration order that
`search` materializes it in (`fts.rs:675-676`).  The stemmer is passed as a
function argument: `stem` in stemmer.rs is memoized and deterministic per
word, so any search run sees it as a fixed `String → String`. -/

structure QueryM where
  terms : List String
  phrases : List String
  stemmed_phrases : List (List String)
  search_properties : List String

def MAX_MATCHES : Nat := 150

/-- The inner `for term in pair` body of `collect_correlations`: look each
key up in `word_correlations` and max-combine the synonym weights in. -/
def applyCorrelations (wc : List (String × List (String × ℚ)))
    (st : List (String × ℚ)) (keys : List String) : List (String × ℚ) :=
  keys.foldl
    (fun st term =>
      match wc.lookup term with
      | none => st
      | some correlations =>
        correlations.foldl
          (fun st p => alInsert st p.1 (max ((st.lookup p.1).getD 0) p.2))
          st)
    st

/-- The `for i in 0..terms.len()` loop of `collect_correlations`: each term
is looked up alone and, when it has a successor, also as the space-joined
stemmed 2-gram. -/
def corrLoop (stem : String → String) (wc : List (String × List (String × ℚ))) :
    List String → List (String × ℚ) → List (String × ℚ)
  | [], st => st
  | [t], st => applyCorrelations wc st [stem t]
  | t :: t' :: rest, st =>
    corrLoop stem wc (t' :: rest)
      (applyCorrelations wc st [stem t, stem t ++ " " ++ stem t'])

/-- fts.rs `FTSIndex::collect_correlations`. -/
def collect_correlations (stem : String → String)
    (wc : List (String × List (String × ℚ))) (terms : List String) :
    List (String × ℚ) :=
  let stemmed_terms := terms.foldl (fun st t => alInsert st (stem t) 1) []
  corrLoop stem wc terms stemmed_terms

/-- fts.rs `FTSIndex::collect_matches_from_trie`. -/
def collect_matches_from_trie (trie : List (String × List Nat))
    (terms : List String) : List (Nat × List String) :=
  terms.foldl (fun acc term => acc ++ trieSearch trie term) []

/-- The query's search properties resolved through the alias map
(fts.rs:663-672 — note it is the *query's* properties that are resolved). -/
def resolvedSearchProps (idx : FTSIndex) (props : List String) : List String :=
  props.map (fun p => (idx.search_property_aliases.lookup p).getD p)

/-- The candidate filter of `FTSIndex::search` (fts.rs:682-688). -/
def searchPropertyFilter (idx : FTSIndex) (props : List String)
    (doc : Document) : Bool :=
  let search_properties := resolvedSearchProps idx props
  if search_properties.isEmpty then doc.include_in_global_search
  else search_properties.contains doc.search_property

def docOf (idx : FTSIndex) (doc_id : Nat) : Document :=
  idx.documents.getD doc_id default

/-- Stage A of `search`: the filtered trie matches, before any scoring.
This is everything `search` does up to fts.rs:688, and is float-free. -/
def filteredTrieMatches (stem : String → String) (idx : FTSIndex)
    (q : QueryM) : List (Nat × List String) :=
  let stemmed_terms := collect_correlations stem idx.word_correlations q.terms
  (collect_matches_from_trie idx.trie (stemmed_terms.map (fun p => p.1))).filter
    (fun m => searchPropertyFilter idx q.search_properties (docOf idx m.1))

/-- fts.rs `dirichlet_plus` (μ = 2000, δ = 0.05), over the reals. -/
noncomputable def dirichlet_plus (term_frequency_in_query : ℚ)
    (term_frequency_in_doc : Nat) (term_probability_in_language : ℚ)
    (doc_length : Nat) (query_length : Nat) : ℝ :=
  if term_probability_in_language = 0 then 0
  else
    let mu : ℝ := 2000
    let delta : ℝ := 1 / 20
    let p : ℝ := (term_probability_in_language : ℝ)
    let term2 := Real.logb 2 (1 + (term_frequency_in_doc : ℝ) / (mu * p)) +
      Real.logb 2 (1 + delta / (mu * p))
    let term3 := (query_length : ℝ) * Real.logb 2 (mu / ((doc_length : ℝ) + mu))
    (term_frequency_in_query : ℝ) * term2 + term3

/-- The per-term, per-document relevancy contribution summed over fields
(fts.rs:693-717).  A token missing from the expanded term-weight map gets
the constant default weight 0.1. -/
noncomputable def termRelevancy (idx : FTSIndex)
    (stemmed_terms : List (String × ℚ)) (query_length : Nat) (doc_id : Nat)
    (term : String) : ℝ :=
  let term_entry := (idx.terms.lookup term).getD TermEntry.new
  idx.fields.foldl
    (fun acc field =>
      match field.documents.lookup doc_id with
      | none => acc
      | some doc_entry =>
        let term_weight := (stemmed_terms.lookup term).getD (1 / 10)
        let term_frequency_in_doc :=
          (doc_entry.term_frequencies.lookup term).getD 0
        let term_probability : ℚ :=
          ((term_entry.times_appeared.lookup field.name).getD 0 : ℚ) /
            (max field.total_tokens 500 : ℚ)
        acc + dirichlet_plus term_weight term_frequency_in_doc term_probability
          doc_entry.len query_length * (field.weight : ℝ) *
          (field.length_weight : ℝ))
    0

/-- A candidate match under accumulation (fts.rs `SearchMatch`, the parts
live before the base-set expansion). -/
structure SearchMatchM where
  relevancy_score : ℝ
  terms : List String

noncomputable def accumulateMatches (idx : FTSIndex)
    (stemmed_terms : List (String × ℚ)) (query_length : Nat)
    (results : List (Nat × List String)) : List (Nat × SearchMatchM) :=
  results.foldl
    (fun ms p =>
      p.2.foldl
        (fun ms term =>
          let m := (ms.lookup p.1).getD ⟨0, []⟩
          alInsert ms p.1
            ⟨m.relevancy_score + termRelevancy idx stemmed_terms query_length p.1 term,
             if term ∈ m.terms then m.terms else m.terms ++ [term]⟩)
        ms)
    []

/-- The token-position map built for the phrase check (fts.rs:733-747);
`none` models the `return false` on a missing term or position list. -/
def buildTokenPositions (idx : FTSIndex) (doc_id : Nat) :
    List String → Option (List (String × List Nat))
  | [] => some []
  | term :: rest =>
    match idx.terms.lookup term with
    | none => none
    | some te =>
      match te.positions.lookup doc_id with
      | none => none
      | some ps =>
        (buildTokenPositions idx doc_id rest).map (fun l => (term, ps) :: l)

/-- The root set: candidate matches, phrase-filtered when the query has
phrases (fts.rs:727-751). -/
noncomputable def rootSet (idx : FTSIndex) (q : QueryM)
    (candidates : List (Nat × SearchMatchM)) : List (Nat × SearchMatchM) :=
  if q.phrases.isEmpty then candidates
  else
    candidates.filter
      (fun m =>
        match buildTokenPositions idx m.1 m.2.terms with
        | none => false
        | some tokens => check_phrases q.stemmed_phrases tokens)

/-- A base-set node (fts.rs `SearchMatch` after `MatchSet::insert`). -/
structure BaseMatch where
  relevancy_score : ℝ
  incoming_neighbors : List Nat
  outgoing_neighbors : List Nat

/-- fts.rs `MatchSet::insert`: pull in the root match's graph neighbors as
zero-relevancy nodes, then store the root match itself.  (The subsequent
`MatchSet::finish`/`get_neighbors` pass only re-inserts each set's own
elements into itself and is a no-op.) -/
noncomputable def insertIntoMatchSet (idx : FTSIndex)
    (ms : List (Nat × BaseMatch)) (m : Nat × SearchMatchM) :
    List (Nat × BaseMatch) :=
  let inc := (idx.incoming_neighbors.lookup m.1).getD []
  let out := (idx.outgoing_neighbors.lookup m.1).getD []
  let ms := inc.foldl
    (fun ms id => if (ms.lookup id).isSome then ms else ms ++ [(id, ⟨0, [], []⟩)]) ms
  let ms := out.foldl
    (fun ms id => if (ms.lookup id).isSome then ms else ms ++ [(id, ⟨0, [], []⟩)]) ms
  alInsert ms m.1 ⟨m.2.relevancy_score, inc, out⟩

/-- The tail of fts.rs `MatchSet::hits` (lines 338-408): drop
zero-relevancy nodes, sort descending by final score, truncate to
`MAX_MATCHES`.  The HITS iterations and score fusion only determine the
floating-point sort keys, which enter as the abstract `score` argument. -/
noncomputable def hitsResult (ms : List (Nat × BaseMatch)) (score : Nat → ℝ) :
    List Nat :=
  (((ms.filter (fun m => decide (0 < m.2.relevancy_score))).map
      (fun m => m.1)).mergeSort
    (fun a b => decide (score b ≤ score a))).take MAX_MATCHES

/-- fts.rs `FTSIndex::search`, with the final floating-point sort keys
abstracted as `score`. -/
noncomputable def search (stem : String → String) (idx : FTSIndex)
    (q : QueryM) (score : Nat → ℝ) : List Document :=
  let stemmed_terms := collect_correlations stem idx.word_correlations q.terms
  let filtered := filteredTrieMatches stem idx q
  let match_set := accumulateMatches idx stemmed_terms q.terms.length filtered
  let root := rootSet idx q match_set
  let base := root.foldl (insertIntoMatchSet idx) []
  (hitsResult base score).map (docOf idx)

/-- C6: for every index, query, stemmer behavior, and final-score
assignment, the list of documents returned by `search` has length at most
150 (`MAX_MATCHES`): `MatchSet::hits` truncates before returning. -/
theorem search_length_le_150 (stem : String → String) (idx : FTSIndex)
    (q : QueryM) (score : Nat → ℝ) : (search stem idx q score).length ≤ 150 := by
  rw [search]
  simp only [List.length_map]
  exact le_trans (List.length_take_le _ _) (by norm_num [MAX_MATCHES])

/-- C1 amended: `search`'s candidate filter resolves the *query's* search
properties through the alias map; every candidate match's document then
either lies in that resolved set (when the query has search properties) or
has `include_in_global_search` — documents failing *this* test contribute
no match. -/
theorem candidate_passes_code_filter (stem : String → String) (idx : FTSIndex)
    (q : QueryM) (m : Nat × List String)
    (h : m ∈ filteredTrieMatches stem idx q) :
    if (resolvedSearchProps idx q.search_properties).isEmpty then
      (docOf idx m.1).include_in_global_search = true
    else
      (docOf idx m.1).search_property ∈ resolvedSearchProps idx q.search_properties := by
  rw [filteredTrieMatches] at h
  have hf := List.of_mem_filter h
  rw [searchPropertyFilter] at hf
  by_cases he : (resolvedSearchProps idx q.search_properties).isEmpty
  · rw [if_pos he] at hf ⊢
    exact hf
  · rw [if_neg he] at hf ⊢
    simpa using hf

/-- The identity stemmer, used to instantiate concrete scenarios whose
tokens the Porter2 stemmer leaves unchanged. -/
def idStem : String → String := fun w => w

def mkManifestDoc (slug title text : String) (links : List String)
    (url : String) : ManifestDocument :=
  ⟨slug, title, "", [], text, "", links, url⟩

/-- The C1 scenario: an alias `"a" → "b"`, and one non-global document
carrying the *canonical* property `"b"`, queried with properties `["a"]`. -/
def idxC1 : FTSIndex :=
  (((FTSIndex.new [Field.new "text" 1]).alias_search_property "a" "b").add
    idStem (mkManifestDoc "d" "" "tok" [] "u") false "b").finish

def qC1 : QueryM := ⟨["tok"], [], [], ["a"]⟩

/-- The claim's own filter, formalized from the spec's words: resolve the
*document's* search property through the alias map; if the query has search
properties, that resolved property must be in the query's set; otherwise
the document must have `include_in_global_search`. -/
def specSearchPropertyFilter (idx : FTSIndex) (props : List String)
    (doc : Document) : Bool :=
  let resolved :=
    (idx.search_property_aliases.lookup doc.search_property).getD
      doc.search_property
  if props.isEmpty then doc.include_in_global_search
  else props.contains resolved

/-- C1 counterexample: the document of `idxC1` contributes a candidate
match for `qC1` even though the claim's document-side alias-resolution test
rejects it — the code resolves the query's properties, not the
document's. -/
theorem c1_filter_counterexample :
    (0, ["tok"]) ∈ filteredTrieMatches idStem idxC1 qC1 ∧
      specSearchPropertyFilter idxC1 qC1.search_properties (docOf idxC1 0) =
        false := by
  constructor
  · decide
  · decide

/-- Witness for the amended C1 theorem at the same concrete scenario. -/
theorem candidate_passes_code_filter_witness :
    (0, ["tok"]) ∈ filteredTrieMatches idStem idxC1 qC1 ∧
      if (resolvedSearchProps idxC1 qC1.search_properties).isEmpty then
        (docOf idxC1 0).include_in_global_search = true
      else
        (docOf idxC1 0).search_property ∈
          resolvedSearchProps idxC1 qC1.search_properties :=
  ⟨by decide, candidate_passes_code_filter idStem idxC1 qC1 (0, ["tok"]) (by decide)⟩

/-- C10: a token returned by the trie prefix search that is not a key of
the correlation-expanded term-weight map is scored exactly as with the
empty weight map — both give it the constant default term-frequency-in-query
weight 0.1, not the weight of the query term whose prefix matched it. -/
theorem unknown_trie_token_gets_default_weight (idx : FTSIndex)
    (stemmed_terms : List (String × ℚ)) (query_length doc_id : Nat)
    (term : String) (h : stemmed_terms.lookup term = none) :
    termRelevancy idx stemmed_terms query_length doc_id term =
      termRelevancy idx [] query_length doc_id term := by
  rw [termRelevancy, termRelevancy]
  simp only [h, List.lookup]

/-- Witness for C10: the stem `"carniv"` prefix-matches the stored token
`"carnivora"`, which is not a key of the expanded weight map. -/
theorem unknown_trie_token_gets_default_weight_witness :
    (collect_correlations idStem [] ["carniv"]).lookup "carnivora" = none ∧
      termRelevancy idxC1 (collect_correlations idStem [] ["carniv"]) 1 0
          "carnivora" =
        termRelevancy idxC1 [] 1 0 "carnivora" :=
  ⟨by decide, unknown_trie_token_gets_default_weight idxC1 _ 1 0 "carnivora"
    (by decide)⟩

/-! ### Searching an unfinished index (C3) -/

/-- The build phase as driven by main.rs: a fresh index, a sequence of
`add` calls — and, for C3, *no* `finish`. -/
def buildIndex (stem : String → String) (fieldSpecs : List (String × ℚ))
    (docs : List (ManifestDocument × Bool × String)) : FTSIndex :=
  docs.foldl (fun idx d => idx.add stem d.1 d.2.1 d.2.2)
    (FTSIndex.new (fieldSpecs.map (fun p => Field.new p.1 p.2)))

theorem lookup_mem {K V : Type} [BEq K] [LawfulBEq K] {m : List (K × V)}
    {k : K} {v : V} (h : m.lookup k = some v) : (k, v) ∈ m := by
  induction m with
  | nil => exact Option.noConfusion h
  | cons a rest ih =>
    rw [List.lookup] at h
    cases hk : k == a.1 with
    | true =>
      rw [hk] at h
      have : v = a.2 := by simpa using h.symm
      have hka : k = a.1 := by simpa using hk
      subst this; subst hka
      exact List.mem_cons_self _ _
    | false =>
      rw [hk] at h
      exact List.mem_cons_of_mem _ (ih h)

theorem mem_alInsert {K V : Type} [BEq K] {m : List (K × V)} {k : K} {v : V}
    {x : K × V} (h : x ∈ alInsert m k v) : x = (k, v) ∨ x ∈ m := by
  rw [alInsert, List.mem_cons] at h
  rcases h with h | h
  · exact Or.inl h
  · exact Or.inr (List.mem_of_mem_filter h)

theorem processField_length_weight {stem : String → String}
    {document : ManifestDocument} {doc_id : Nat} :
    ∀ (fields : List Field) (st : AddFieldState × List Field) f',
      f' ∈ (fields.foldl (processField stem document doc_id) st).2 →
      f' ∈ st.2 ∨ ∃ f ∈ fields, f'.length_weight = f.length_weight := by
  intro fields
  induction fields with
  | nil => intro st f' h; exact Or.inl h
  | cons f rest ih =>
    intro st f' h
    rw [List.foldl_cons] at h
    rcases ih _ f' h with h' | ⟨g, hg, heq⟩
    · -- membership in the one-step state
      have hstep : (processField stem document doc_id st f).2 = st.2 ++ [f] ∨
          ∃ f₁, (processField stem document doc_id st f).2 = st.2 ++ [f₁] ∧
            f₁.length_weight = f.length_weight := by
        rw [processField]
        cases document.get f.name with
        | none => exact Or.inl rfl
        | some text =>
          by_cases ht : text.length = 0
          · simp only [ht, if_pos rfl]
            exact Or.inl rfl
          · simp only [if_neg ht]
            exact Or.inr ⟨_, rfl, rfl⟩
      rcases hstep with he | ⟨f₁, he, hlw⟩
      · rw [he, List.mem_append] at h'
        rcases h' with h' | h'
        · exact Or.inl h'
        · simp only [List.mem_singleton] at h'
          exact Or.inr ⟨f, List.mem_cons_self _ _, by rw [h']⟩
      · rw [he, List.mem_append] at h'
        rcases h' with h' | h'
        · exact Or.inl h'
        · simp only [List.mem_singleton] at h'
          subst h'
          exact Or.inr ⟨f, List.mem_cons_self _ _, hlw⟩
    · exact Or.inr ⟨g, List.mem_cons_of_mem _ hg, heq⟩

theorem correlate_word_preserves (idx : FTSIndex) (stem : String → String)
    (word synonym : String) (closeness : ℚ) :
    (idx.correlate_word stem word synonym closeness).fields = idx.fields ∧
      (idx.correlate_word stem word synonym closeness).incoming_neighbors =
        idx.incoming_neighbors ∧
      (idx.correlate_word stem word synonym closeness).outgoing_neighbors =
        idx.outgoing_neighbors := by
  rw [FTSIndex.correlate_word]
  exact ⟨rfl, rfl, rfl⟩

theorem correlateFold_preserves (stem : String → String)
    (cs : List (String × Nat × ℚ)) (idx : FTSIndex) :
    (cs.foldl
        (fun i c =>
          i.correlate_word stem (String.mk (c.1.data.drop c.2.1)) c.1 c.2.2)
        idx).fields = idx.fields ∧
      (cs.foldl
          (fun i c =>
            i.correlate_word stem (String.mk (c.1.data.drop c.2.1)) c.1 c.2.2)
          idx).incoming_neighbors = idx.incoming_neighbors ∧
      (cs.foldl
          (fun i c =>
            i.correlate_word stem (String.mk (c.1.data.drop c.2.1)) c.1 c.2.2)
          idx).outgoing_neighbors = idx.outgoing_neighbors := by
  induction cs generalizing idx with
  | nil => exact ⟨rfl, rfl, rfl⟩
  | cons c rest ih =>
    rw [List.foldl_cons]
    rcases ih (idx.correlate_word stem (String.mk (c.1.data.drop c.2.1)) c.1 c.2.2)
      with ⟨h1, h2, h3⟩
    rcases correlate_word_preserves idx stem
      (String.mk (c.1.data.drop c.2.1)) c.1 c.2.2 with ⟨g1, g2, g3⟩
    exact ⟨h1.trans g1, h2.trans g2, h3.trans g3⟩

/-- `add` never touches the adjacency maps, and every output field inherits
its `length_weight` from some input field. -/
theorem add_preserves_unfinished (stem : String → String) (idx : FTSIndex)
    (document : ManifestDocument) (inc : Bool) (sp : String)
    (h : ∀ f ∈ idx.fields, f.length_weight = 0)
    (hin : idx.incoming_neighbors = []) (hout : idx.outgoing_neighbors = []) :
    (∀ f ∈ (idx.add stem document inc sp).fields, f.length_weight = 0) ∧
      (idx.add stem document inc sp).incoming_neighbors = [] ∧
      (idx.add stem document inc sp).outgoing_neighbors = [] := by
  rw [FTSIndex.add]
  rcases correlateFold_preserves stem
    (idx.fields.foldl (processField stem document idx.doc_id)
      (⟨idx.terms, idx.trie, idx.term_id, []⟩, [])).1.correlations _
    with ⟨h1, h2, h3⟩
  refine ⟨?_, by rw [h2]; exact hin, by rw [h3]; exact hout⟩
  intro f hf
  rw [h1] at hf
  simp only at hf
  rcases processField_length_weight idx.fields _ f hf with hnil | ⟨g, hg, heq⟩
  · simp at hnil
  · rw [heq]; exact h g hg

theorem buildIndex_unfinished (stem : String → String)
    (fieldSpecs : List (String × ℚ))
    (docs : List (ManifestDocument × Bool × String)) :
    (∀ f ∈ (buildIndex stem fieldSpecs docs).fields, f.length_weight = 0) ∧
      (buildIndex stem fieldSpecs docs).incoming_neighbors = [] ∧
      (buildIndex stem fieldSpecs docs).outgoing_neighbors = [] := by
  rw [buildIndex]
  have h0 : ∀ f ∈ (fieldSpecs.map (fun p => Field.new p.1 p.2)), f.length_weight = 0 := by
    intro f hf
    rcases List.mem_map.mp hf with ⟨p, -, rfl⟩
    rfl
  generalize hidx : FTSIndex.new (fieldSpecs.map (fun p => Field.new p.1 p.2)) = idx0
  have hbase : (∀ f ∈ idx0.fields, f.length_weight = 0) ∧
      idx0.incoming_neighbors = [] ∧ idx0.outgoing_neighbors = [] := by
    rw [← hidx]
    exact ⟨h0, rfl, rfl⟩
  clear hidx h0
  induction docs generalizing idx0 with
  | nil => exact hbase
  | cons d rest ih =>
    rw [List.foldl_cons]
    exact ih _ (add_preserves_unfinished stem idx0 d.1 d.2.1 d.2.2 hbase.1
      hbase.2.1 hbase.2.2)

/-- With every field's `length_weight` still zero, each per-term relevancy
contribution is annihilated. -/
theorem termRelevancy_zero (idx : FTSIndex)
    (h : ∀ f ∈ idx.fields, f.length_weight = 0)
    (st : List (String × ℚ)) (qlen doc_id : Nat) (term : String) :
    termRelevancy idx st qlen doc_id term = 0 := by
  rw [termRelevancy]
  have : ∀ (fs : List Field), (∀ f ∈ fs, f.length_weight = 0) → ∀ (acc : ℝ),
      fs.foldl
        (fun acc field =>
          match field.documents.lookup doc_id with
          | none => acc
          | some doc_entry =>
            acc + dirichlet_plus ((st.lookup term).getD (1 / 10))
              ((doc_entry.term_frequencies.lookup term).getD 0)
              ((((idx.terms.lookup term).getD
                  TermEntry.new).times_appeared.lookup field.name).getD 0 /
                (max field.total_tokens 500 : ℚ))
              doc_entry.len qlen * (field.weight : ℝ) *
              (field.length_weight : ℝ))
        acc = acc := by
    intro fs
    induction fs with
    | nil => intro _ acc; rfl
    | cons f rest ih =>
      intro hfs acc
      rw [List.foldl_cons]
      have hf0 : f.length_weight = 0 := hfs f (List.mem_cons_self _ _)
      have hrest : ∀ g ∈ rest, g.length_weight = 0 :=
        fun g hg => hfs g (List.mem_cons_of_mem _ hg)
      cases f.documents.lookup doc_id with
      | none => exact ih hrest acc
      | some de =>
        simp only [hf0, Rat.cast_zero, mul_zero, add_zero]
        exact ih hrest acc
  exact this idx.fields h 0

theorem accumulateMatches_relevancy_zero (idx : FTSIndex)
    (h : ∀ f ∈ idx.fields, f.length_weight = 0)
    (st : List (String × ℚ)) (qlen : Nat)
    (results : List (Nat × List String)) :
    ∀ e ∈ accumulateMatches idx st qlen results, e.2.relevancy_score = 0 := by
  rw [accumulateMatches]
  have inner : ∀ (terms : List String) (d : Nat)
      (ms : List (Nat × SearchMatchM)),
      (∀ e ∈ ms, e.2.relevancy_score = 0) →
      ∀ e ∈ terms.foldl
        (fun ms term =>
          let m := (ms.lookup d).getD ⟨0, []⟩
          alInsert ms d
            ⟨m.relevancy_score + termRelevancy idx st qlen d term,
             if term ∈ m.terms then m.terms else m.terms ++ [term]⟩)
        ms, e.2.relevancy_score = 0 := by
    intro terms
    induction terms with
    | nil => intro d ms hms e he; exact hms e he
    | cons t rest ih =>
      intro d ms hms e he
      rw [List.foldl_cons] at he
      refine ih d _ ?_ e he
      intro e' he'
      rcases mem_alInsert he' with rfl | he'
      · have hm : ((ms.lookup d).getD ⟨0, []⟩).relevancy_score = 0 := by
          cases hl : ms.lookup d with
          | none => rfl
          | some m => exact hms (d, m) (lookup_mem hl)
        simp only [hm, termRelevancy_zero idx h st qlen d t, add_zero]
      · exact hms e' he'
  have outer : ∀ (rs : List (Nat × List String)) (ms : List (Nat × SearchMatchM)),
      (∀ e ∈ ms, e.2.relevancy_score = 0) →
      ∀ e ∈ rs.foldl
        (fun ms p =>
          p.2.foldl
            (fun ms term =>
              let m := (ms.lookup p.1).getD ⟨0, []⟩
              alInsert ms p.1
                ⟨m.relevancy_score + termRelevancy idx st qlen p.1 term,
                 if term ∈ m.terms then m.terms else m.terms ++ [term]⟩)
            ms)
        ms, e.2.relevancy_score = 0 := by
    intro rs
    induction rs with
    | nil => intro ms hms e he; exact hms e he
    | cons p rest ih =>
      intro ms hms e he
      rw [List.foldl_cons] at he
      exact ih _ (inner p.2 p.1 ms hms) e he
  exact outer results [] (by intro e he; simp at he)

theorem rootSet_subset (idx : FTSIndex) (q : QueryM)
    (ms : List (Nat × SearchMatchM)) : ∀ e ∈ rootSet idx q ms, e ∈ ms := by
  intro e he
  rw [rootSet] at he
  by_cases hp : q.phrases.isEmpty
  · rwa [if_pos hp] at he
  · rw [if_neg hp] at he
    exact List.mem_of_mem_filter he

theorem baseSet_relevancy_zero (idx : FTSIndex)
    (hin : idx.incoming_neighbors = []) (hout : idx.outgoing_neighbors = [])
    (root : List (Nat × SearchMatchM))
    (hroot : ∀ e ∈ root, e.2.relevancy_score = 0) :
    ∀ e ∈ root.foldl (insertIntoMatchSet idx) [],
      e.2.relevancy_score = 0 := by
  have step : ∀ (ms : List (Nat × BaseMatch)) (m : Nat × SearchMatchM),
      (∀ e ∈ ms, e.2.relevancy_score = 0) → m.2.relevancy_score = 0 →
      ∀ e ∈ insertIntoMatchSet idx ms m, e.2.relevancy_score = 0 := by
    intro ms m hms hm e he
    rw [insertIntoMatchSet, hin, hout] at he
    simp only [List.lookup_nil, Option.getD_none, List.foldl_nil] at he
    rcases mem_alInsert he with rfl | he
    · exact hm
    · exact hms e he
  have : ∀ (l : List (Nat × SearchMatchM)) (ms : List (Nat × BaseMatch)),
      (∀ e ∈ ms, e.2.relevancy_score = 0) →
      (∀ e ∈ l, e.2.relevancy_score = 0) →
      ∀ e ∈ l.foldl (insertIntoMatchSet idx) ms, e.2.relevancy_score = 0 := by
    intro l
    induction l with
    | nil => intro ms hms _ e he; exact hms e he
    | cons m rest ih =>
      intro ms hms hl e he
      rw [List.foldl_cons] at he
      exact ih _ (step ms m hms (hl m (List.mem_cons_self _ _)))
        (fun e' he' => hl e' (List.mem_cons_of_mem _ he')) e he
  exact fun e he => this root [] (by intro e' he'; simp at he') hroot e he

/-- C3: the code does NOT fail fast.  Searching any index that was built by
`add` calls but never `finish`ed silently returns the ordinary empty result
list: every relevancy score is multiplied by the still-zero `length_weight`,
so every candidate is discarded as zero-relevancy. -/
theorem search_before_finish_returns_empty (stem : String → String)
    (fieldSpecs : List (String × ℚ))
    (docs : List (ManifestDocument × Bool × String)) (q : QueryM)
    (score : Nat → ℝ) :
    search stem (buildIndex stem fieldSpecs docs) q score = [] := by
  obtain ⟨hlw, hin, hout⟩ := buildIndex_unfinished stem fieldSpecs docs
  set idx := buildIndex stem fieldSpecs docs with hidx
  rw [search]
  have hacc := accumulateMatches_relevancy_zero idx hlw
    (collect_correlations stem idx.word_correlations q.terms) q.terms.length
    (filteredTrieMatches stem idx q)
  have hroot : ∀ e ∈ rootSet idx q
      (accumulateMatches idx
        (collect_correlations stem idx.word_correlations q.terms)
        q.terms.length (filteredTrieMatches stem idx q)),
      e.2.relevancy_score = 0 :=
    fun e he => hacc e (rootSet_subset idx q _ e he)
  have hbase := baseSet_relevancy_zero idx hin hout _ hroot
  have hfilter :
      List.filter (fun m => decide (0 < m.2.relevancy_score))
        (List.foldl (insertIntoMatchSet idx) []
          (rootSet idx q
            (accumulateMatches idx
              (collect_correlations stem idx.word_correlations q.terms)
              q.terms.length (filteredTrieMatches stem idx q)))) = [] := by
    rw [List.filter_eq_nil_iff]
    intro e he
    rw [hbase e he]
    simp
  rw [hitsResult, hfilter]
  simp

/-! ### Order-dependence of the candidate term set (C4) -/

/-- Positivity of a sum of base-2 logarithms whose product of arguments
exceeds one. -/
theorem logb_sum_pos {a b c : ℝ} (ha : 0 < a) (hb : 0 < b) (hc : 0 < c)
    (h : 1 < a * b * c ^ 2) :
    0 < Real.logb 2 a + Real.logb 2 b + 2 * Real.logb 2 c := by
  have hsq : (0:ℝ) < c ^ 2 := by positivity
  have h2 : Real.logb 2 a + Real.logb 2 b + 2 * Real.logb 2 c =
      Real.logb 2 (a * b * c ^ 2) := by
    rw [Real.logb_mul (by positivity) (by positivity),
      Real.logb_mul ha.ne' hb.ne', Real.logb_pow]
    push_cast
    ring
  rw [h2]
  exact Real.logb_pos (by norm_num) h

/-- The index of the C4 scenario: one 2-gram correlation
`"qq zz" → ("syn", 1)` and a single global document whose only token is
`"syn"`. -/
def idxC4 : FTSIndex :=
  (((FTSIndex.new [Field.new "text" 1]).correlate_word idStem "qq zz" "syn" 1).add
    idStem (mkManifestDoc "d" "" "syn" [] "u") true "p").finish

/-- The same query term set `{"qq", "zz"}` in its two iteration orders. -/
def qC4a : QueryM := ⟨["qq", "zz"], [], [], []⟩

def qC4b : QueryM := ⟨["zz", "qq"], [], [], []⟩

def zeroScore : Nat → ℝ := fun _ => 0

theorem dirichlet_c4_pos : (0:ℝ) < dirichlet_plus 1 2 (1/500) 2 2 := by
  rw [dirichlet_plus, if_neg (by norm_num)]
  push_cast
  norm_num
  have := logb_sum_pos (a := 3/2) (b := 81/80) (c := 1000/1001)
    (by norm_num) (by norm_num) (by norm_num) (by norm_num)
  linarith [this]

theorem c4_relevancy_pos :
    0 < termRelevancy idxC4
      (collect_correlations idStem idxC4.word_correlations qC4a.terms) 2 0
      "syn" := by
  have hfields : idxC4.fields = [⟨"text", [(0, ⟨2, [("syn", 2)]⟩)], 1, 2, 1⟩] := by
    decide
  have hterms : idxC4.terms =
      [("syn", ⟨[0], [(0, [1, 2])], [("text", 1)], [("text", 0)]⟩)] := by decide
  have hst : (collect_correlations idStem idxC4.word_correlations
      qC4a.terms).lookup "syn" = some 1 := by decide
  rw [termRelevancy, hfields, hterms]
  rw [List.foldl_cons, List.foldl_nil]
  simp only [hst, Option.getD_some]
  norm_num
  exact dirichlet_c4_pos

theorem c4_run1 : search idStem idxC4 qC4a zeroScore = [docOf idxC4 0] := by
  have hf1 : filteredTrieMatches idStem idxC4 qC4a = [(0, ["syn"])] := by decide
  have hin0 : idxC4.incoming_neighbors.lookup 0 = some [] := by decide
  have hout0 : idxC4.outgoing_neighbors.lookup 0 = some [] := by decide
  have hqlen : qC4a.terms.length = 2 := rfl
  set ST := collect_correlations idStem idxC4.word_correlations qC4a.terms
    with hST
  set R := termRelevancy idxC4 ST 2 0 "syn" with hR
  have hpos : (0:ℝ) < R := c4_relevancy_pos
  have hacc : accumulateMatches idxC4 ST 2 [(0, ["syn"])] = [(0, ⟨R, ["syn"]⟩)] := by
    simp [accumulateMatches, alInsert, hR]
  have hroot : rootSet idxC4 qC4a [(0, (⟨R, ["syn"]⟩ : SearchMatchM))] =
      [(0, ⟨R, ["syn"]⟩)] := rfl
  have hbase : List.foldl (insertIntoMatchSet idxC4) []
      [(0, (⟨R, ["syn"]⟩ : SearchMatchM))] = [(0, ⟨R, [], []⟩)] := by
    simp [insertIntoMatchSet, hin0, hout0, alInsert]
  have hhits : hitsResult [(0, (⟨R, [], []⟩ : BaseMatch))] zeroScore = [0] := by
    rw [hitsResult]
    simp [decide_eq_true hpos, MAX_MATCHES]
  simp only [search, hf1, hqlen, ← hST]
  rw [hacc, hroot, hbase, hhits]
  rfl

theorem c4_run2 : search idStem idxC4 qC4b zeroScore = [] := by
  have hf2 : filteredTrieMatches idStem idxC4 qC4b = [] := by decide
  simp only [search, hf2]
  rw [show accumulateMatches idxC4
      (collect_correlations idStem idxC4.word_correlations qC4b.terms)
      qC4b.terms.length [] = [] from rfl]
  rw [show rootSet idxC4 qC4b [] = [] from rfl]
  rw [show List.foldl (insertIntoMatchSet idxC4) []
      ([] : List (Nat × SearchMatchM)) = [] from rfl]
  rw [hitsResult]
  simp

/-- C4 counterexample: the same finished index and the same query term set,
materialized in its two possible iteration orders, return *different result
sets*: the order `["qq", "zz"]` forms the 2-gram `"qq zz"`, whose
correlation pulls in the synonym `"syn"` and hence the document; the order
`["zz", "qq"]` forms `"zz qq"` and returns nothing. -/
theorem search_result_set_order_dependent :
    List.Perm qC4a.terms qC4b.terms ∧
      docOf idxC4 0 ∈ search idStem idxC4 qC4a zeroScore ∧
      docOf idxC4 0 ∉ search idStem idxC4 qC4b zeroScore := by
  refine ⟨by decide, ?_, ?_⟩
  · rw [c4_run1]
    exact List.mem_singleton.mpr rfl
  · rw [c4_run2]
    simp

/-! The amended C4 statement: when no 2-gram (space-containing) correlation
key exists, the correlation-expanded term-weight map — and with it the
candidate collection — does not depend on the unspecified iteration order
of the query's term set. -/

theorem lookup_none_of_no_space (wc : List (String × List (String × ℚ)))
    (hkeys : ∀ p ∈ wc, ¬ ' ' ∈ p.1.data) (s : String) (hs : ' ' ∈ s.data) :
    wc.lookup s = none := by
  cases hl : wc.lookup s with
  | none => rfl
  | some v => exact absurd hs (hkeys (s, v) (lookup_mem hl))

theorem applyCorrelations_second_missing
    (wc : List (String × List (String × ℚ))) (st : List (String × ℚ))
    (a b : String) (hb : wc.lookup b = none) :
    applyCorrelations wc st [a, b] = applyCorrelations wc st [a] := by
  rw [applyCorrelations, applyCorrelations]
  simp only [List.foldl_cons, List.foldl_nil, hb]

theorem corrLoop_eq_foldl (stem : String → String)
    (wc : List (String × List (String × ℚ)))
    (hkeys : ∀ p ∈ wc, ¬ ' ' ∈ p.1.data) :
    ∀ (l : List String) (st : List (String × ℚ)),
      corrLoop stem wc l st =
        l.foldl (fun st t => applyCorrelations wc st [stem t]) st := by
  intro l
  induction l with
  | nil => intro st; rfl
  | cons t rest ih =>
    intro st
    cases rest with
    | nil => rfl
    | cons t' rest' =>
      rw [corrLoop]
      have hspace : ' ' ∈ (stem t ++ " " ++ stem t').data := by
        simp [String.data_append]
      rw [applyCorrelations_second_missing wc st _ _
        (lookup_none_of_no_space wc hkeys _ hspace)]
      rw [ih]
      rfl

/-- The running max-combination `HashMap` entry for one key. -/
def mergeMax (o : Option ℚ) (ws : List ℚ) : Option ℚ :=
  ws.foldl (fun o w => some (max (o.getD 0) w)) o

/-- The closeness weights a single correlation-map key contributes to the
entry of `k`. -/
def weightsFor (wc : List (String × List (String × ℚ))) (k : String)
    (key : String) : List ℚ :=
  ((wc.lookup key).getD []).filterMap
    (fun p => if p.1 = k then some p.2 else none)

theorem lookup_corr_foldl (corrs : List (String × ℚ))
    (st : List (String × ℚ)) (k : String) :
    (corrs.foldl
        (fun st p => alInsert st p.1 (max ((st.lookup p.1).getD 0) p.2))
        st).lookup k =
      mergeMax (st.lookup k)
        (corrs.filterMap (fun p => if p.1 = k then some p.2 else none)) := by
  induction corrs generalizing st with
  | nil => rfl
  | cons p rest ih =>
    rw [List.foldl_cons, List.filterMap_cons]
    by_cases hp : p.1 = k
    · rw [if_pos hp, ih]
      subst hp
      rw [lookup_alInsert_self]
      rfl
    · rw [if_neg hp, ih]
      rw [lookup_alInsert_ne _ _ _ _ (fun h => hp h.symm)]

theorem lookup_applyCorrelations_single
    (wc : List (String × List (String × ℚ))) (st : List (String × ℚ))
    (key k : String) :
    (applyCorrelations wc st [key]).lookup k =
      mergeMax (st.lookup k) (weightsFor wc k key) := by
  rw [applyCorrelations]
  simp only [List.foldl_cons, List.foldl_nil]
  cases hl : wc.lookup key with
  | none => simp [weightsFor, hl, mergeMax]
  | some corrs =>
    simp only [weightsFor, hl, Option.getD_some]
    exact lookup_corr_foldl corrs st k

theorem mergeMax_append (o : Option ℚ) (ws1 ws2 : List ℚ) :
    mergeMax (mergeMax o ws1) ws2 = mergeMax o (ws1 ++ ws2) := by
  rw [mergeMax, mergeMax, mergeMax, List.foldl_append]

theorem lookup_foldl_applyOne (stem : String → String)
    (wc : List (String × List (String × ℚ))) (l : List String)
    (st : List (String × ℚ)) (k : String) :
    (l.foldl (fun st t => applyCorrelations wc st [stem t]) st).lookup k =
      mergeMax (st.lookup k) (l.flatMap (fun t => weightsFor wc k (stem t))) := by
  induction l generalizing st with
  | nil => rfl
  | cons t rest ih =>
    rw [List.foldl_cons, ih, lookup_applyCorrelations_single,
      List.flatMap_cons, mergeMax_append]

theorem lookup_phase1 (stem : String → String) (l : List String)
    (st0 : List (String × ℚ)) (k : String) :
    (l.foldl (fun st t => alInsert st (stem t) 1) st0).lookup k =
      if k ∈ l.map stem then some 1 else st0.lookup k := by
  induction l generalizing st0 with
  | nil => simp
  | cons t rest ih =>
    rw [List.foldl_cons, ih, List.map_cons]
    by_cases hk : k ∈ rest.map stem
    · rw [if_pos hk, if_pos (List.mem_cons_of_mem _ hk)]
    · rw [if_neg hk]
      by_cases hkt : k = stem t
      · subst hkt
        rw [lookup_alInsert_self, if_pos (List.mem_cons_self _ _)]
      · rw [lookup_alInsert_ne _ _ _ _ hkt]
        rw [if_neg (by
          intro hmem
          rcases List.mem_cons.mp hmem with h | h
          · exact hkt h
          · exact hk h)]

theorem mergeMax_eq (ws : List ℚ) (o : Option ℚ) :
    mergeMax o ws = if ws = [] then o else some (ws.foldl max (o.getD 0)) := by
  induction ws generalizing o with
  | nil => rfl
  | cons w rest ih =>
    have hstep : mergeMax o (w :: rest) = mergeMax (some (max (o.getD 0) w)) rest :=
      rfl
    rw [hstep, ih]
    by_cases hr : rest = []
    · subst hr; simp
    · rw [if_neg hr, if_neg (by simp), List.foldl_cons]
      rfl

theorem mergeMax_perm (o : Option ℚ) {ws1 ws2 : List ℚ}
    (h : ws1.Perm ws2) : mergeMax o ws1 = mergeMax o ws2 := by
  rw [mergeMax_eq, mergeMax_eq]
  by_cases h1 : ws1 = []
  · subst h1
    rw [List.Perm.eq_nil h.symm]
  · have h2 : ¬ws2 = [] := by
      intro h2; subst h2
      exact h1 (List.Perm.eq_nil h)
    rw [if_neg h1, if_neg h2]
    rw [List.Perm.foldl_eq' h (by
      intro b a ha a' ha'
      simp [sup_comm, sup_assoc, sup_left_comm]) _]

/-- C4 amended: the original claim's unconditional determinism fails (see
the counterexample: with a 2-gram, space-containing, correlation key, two
iteration orders of the same query term set return different document
sets).  What is claimed and proved instead concerns exactly the stage the
counterexample exploits: when no stored correlation key contains a space,
the correlation-expanded term-weight map produced by
`collect_correlations` — the map that seeds candidate collection — agrees
on every key across all iteration orders of the term set.  No
order-independence of search's final result list or set is asserted: even
with this invariance, equal final scores combined with the stable sort and
the 150-truncation can still turn iteration order into result-set
differences. -/
theorem collect_correlations_perm_invariant (stem : String → String)
    (wc : List (String × List (String × ℚ))) (t1 t2 : List String)
    (hp : t1.Perm t2) (hkeys : ∀ p ∈ wc, ¬ ' ' ∈ p.1.data) (k : String) :
    (collect_correlations stem wc t1).lookup k =
      (collect_correlations stem wc t2).lookup k := by
  rw [collect_correlations, collect_correlations,
    corrLoop_eq_foldl stem wc hkeys, corrLoop_eq_foldl stem wc hkeys,
    lookup_foldl_applyOne, lookup_foldl_applyOne,
    lookup_phase1, lookup_phase1]
  have hmem : (k ∈ t1.map stem) ↔ (k ∈ t2.map stem) := (hp.map stem).mem_iff
  have hws : (t1.flatMap (fun t => weightsFor wc k (stem t))).Perm
      (t2.flatMap (fun t => weightsFor wc k (stem t))) :=
    List.Perm.flatMap_right _ hp
  rw [mergeMax_perm _ hws]
  by_cases h1 : k ∈ t1.map stem
  · rw [if_pos h1, if_pos (hmem.mp h1)]
  · rw [if_neg h1, if_neg (fun h => h1 (hmem.mpr h))]

/-- Witness for the amended C4 theorem: a correlation map with only
single-token keys, and the two iteration orders of `{"qq", "zz"}`. -/
theorem collect_correlations_perm_invariant_witness :
    List.Perm ["qq", "zz"] ["zz", "qq"] ∧
      (∀ p ∈ [("syn", [("other", (1:ℚ))])], ¬ ' ' ∈ (p.1 : String).data) ∧
      (collect_correlations idStem [("syn", [("other", (1:ℚ))])]
          ["qq", "zz"]).lookup "other" =
        (collect_correlations idStem [("syn", [("other", (1:ℚ))])]
            ["zz", "qq"]).lookup "other" :=
  ⟨by decide, by decide,
    collect_correlations_perm_invariant idStem _ _ _ (by decide) (by decide)
      "other"⟩

/-! ### The term-frequency / registration invariant (C8) -/

/-- The `(field, document)` registration events of a term (the ghost log
kept by `TermEntry.register`). -/
def regOf (terms : List (String × TermEntry)) (t : String) :
    List (String × Nat) :=
  ((terms.lookup t).getD TermEntry.new).registered

/-- The per-document term frequency of `t` for field `f` and document `d`
(`0` when the document has no entry in the field). -/
def tfOf (f : Field) (d : Nat) (t : String) : Nat :=
  ((f.documents.lookup d).map
    (fun de => (de.term_frequencies.lookup t).getD 0)).getD 0

theorem regOf_alInsert (terms : List (String × TermEntry)) (k : String)
    (e : TermEntry) (t : String) :
    regOf (alInsert terms k e) t = if t = k then e.registered else regOf terms t := by
  by_cases h : t = k
  · subst h
    rw [regOf, lookup_alInsert_self, if_pos rfl]
    rfl
  · rw [regOf, lookup_alInsert_ne _ _ _ _ h, if_neg h]
    rfl

theorem register_registered (e : TermEntry) (F : String) (D : Nat) :
    (e.register F D).registered = e.registered ++ [(F, D)] := rfl

theorem add_token_position_registered (e : TermEntry) (d tid : Nat) :
    (e.add_token_position d tid).registered = e.registered := rfl

/-- The per-field token-frequency/registration invariant threaded through
the token loop: the local `term_frequencies` count of `t` is positive iff
`(F, D)` has been registered for `t`. -/
def TokP (F : String) (D : Nat) (st : AddTokenState) : Prop :=
  ∀ t, 0 < (st.term_frequencies.lookup t).getD 0 ↔ (F, D) ∈ regOf st.terms t

theorem processToken_P (stem : String → String) (F : String) (D : Nat)
    (st : AddTokenState) (tok : String) (hP : TokP F D st) :
    TokP F D (processToken stem F D st tok) := by
  intro t
  by_cases hsw : is_stop_word tok = true
  · simp only [processToken, if_pos hsw]
    exact hP t
  · simp only [processToken, if_neg hsw]
    set tk := if strIsPrefixOf "%%" tok then tok
      else if strIsPrefixOf "$" tok || strIsPrefixOf "%" tok then tok
      else stem tok with htk
    by_cases ht : t = tk
    · subst ht
      rw [lookup_alInsert_self, regOf_alInsert, if_pos rfl,
        add_token_position_registered]
      by_cases hc : (st.term_frequencies.lookup tk).getD 0 = 0
      · rw [if_pos hc, register_registered]
        simp
      · rw [if_neg hc]
        have hmem : (F, D) ∈ ((st.terms.lookup tk).getD TermEntry.new).registered :=
          (hP tk).mp (Nat.pos_of_ne_zero hc)
        simp [hmem]
    · rw [lookup_alInsert_ne _ _ _ _ ht, regOf_alInsert, if_neg ht]
      exact hP t

/-- Registration pairs other than `(F, D)` are untouched by the token loop. -/
theorem processToken_reg_other (stem : String → String) (F : String) (D : Nat)
    (st : AddTokenState) (tok : String) (t F' : String) (d' : Nat)
    (hne : ¬(F' = F ∧ d' = D)) :
    ((F', d') ∈ regOf (processToken stem F D st tok).terms t ↔
      (F', d') ∈ regOf st.terms t) := by
  by_cases hsw : is_stop_word tok = true
  · simp only [processToken, if_pos hsw]
  · simp only [processToken, if_neg hsw]
    set tk := if strIsPrefixOf "%%" tok then tok
      else if strIsPrefixOf "$" tok || strIsPrefixOf "%" tok then tok
      else stem tok with htk
    by_cases ht : t = tk
    · subst ht
      rw [regOf_alInsert, if_pos rfl, add_token_position_registered]
      by_cases hc : (st.term_frequencies.lookup tk).getD 0 = 0
      · rw [if_pos hc, register_registered]
        simp only [List.mem_append, List.mem_singleton, Prod.mk.injEq]
        constructor
        · rintro (h | h)
          · exact h
          · exact absurd h hne
        · exact Or.inl
      · rw [if_neg hc]
        exact Iff.rfl
    · rw [regOf_alInsert, if_neg ht]

theorem processToken_reg_superset (stem : String → String) (F : String)
    (D : Nat) (st : AddTokenState) (tok : String) (t : String)
    (p : String × Nat) (h : p ∈ regOf (processToken stem F D st tok).terms t) :
    p ∈ regOf st.terms t ∨ p = (F, D) := by
  by_cases hsw : is_stop_word tok = true
  · simp only [processToken, if_pos hsw] at h
    exact Or.inl h
  · simp only [processToken, if_neg hsw] at h
    set tk := if strIsPrefixOf "%%" tok then tok
      else if strIsPrefixOf "$" tok || strIsPrefixOf "%" tok then tok
      else stem tok with htk
    by_cases ht : t = tk
    · subst ht
      rw [regOf_alInsert, if_pos rfl, add_token_position_registered] at h
      by_cases hc : (st.term_frequencies.lookup tk).getD 0 = 0
      · rw [if_pos hc, register_registered] at h
        rcases List.mem_append.mp h with h | h
        · exact Or.inl h
        · exact Or.inr (List.mem_singleton.mp h)
      · rw [if_neg hc] at h
        exact Or.inl h
    · rw [regOf_alInsert, if_neg ht] at h
      exact Or.inl h

theorem tokenFold_P (stem : String → String) (F : String) (D : Nat)
    (tokens : List String) (st : AddTokenState) (hP : TokP F D st) :
    TokP F D (tokens.foldl (processToken stem F D) st) := by
  induction tokens generalizing st with
  | nil => exact hP
  | cons tok rest ih =>
    rw [List.foldl_cons]
    exact ih _ (processToken_P stem F D st tok hP)

theorem tokenFold_reg_other (stem : String → String) (F : String) (D : Nat)
    (tokens : List String) (st : AddTokenState) (t F' : String) (d' : Nat)
    (hne : ¬(F' = F ∧ d' = D)) :
    ((F', d') ∈ regOf (tokens.foldl (processToken stem F D) st).terms t ↔
      (F', d') ∈ regOf st.terms t) := by
  induction tokens generalizing st with
  | nil => exact Iff.rfl
  | cons tok rest ih =>
    rw [List.foldl_cons]
    exact (ih _).trans (processToken_reg_other stem F D st tok t F' d' hne)

theorem tokenFold_reg_superset (stem : String → String) (F : String) (D : Nat)
    (tokens : List String) (st : AddTokenState) (t : String) (p : String × Nat)
    (h : p ∈ regOf (tokens.foldl (processToken stem F D) st).terms t) :
    p ∈ regOf st.terms t ∨ p = (F, D) := by
  induction tokens generalizing st with
  | nil => exact Or.inl h
  | cons tok rest ih =>
    rw [List.foldl_cons] at h
    rcases ih _ h with h' | h'
    · exact processToken_reg_superset stem F D st tok t p h'
    · exact Or.inr h'

theorem tfOf_update (field : Field) (de : DocumentEntry) (D d : Nat)
    (t : String) (tt : Nat) :
    tfOf ⟨field.name, alInsert field.documents D de, field.weight, tt,
        field.length_weight⟩ d t =
      if d = D then (de.term_frequencies.lookup t).getD 0 else tfOf field d t := by
  by_cases h : d = D
  · subst h
    show (((alInsert field.documents d de).lookup d).map
      (fun e => (e.term_frequencies.lookup t).getD 0)).getD 0 = _
    rw [lookup_alInsert_self, if_pos rfl]
    rfl
  · show (((alInsert field.documents D de).lookup d).map
      (fun e => (e.term_frequencies.lookup t).getD 0)).getD 0 = _
    rw [lookup_alInsert_ne _ _ _ _ h, if_neg h]
    rfl

/-- The invariant of the field loop inside `FTSIndex::add`: field names are
carried through unchanged; registration pairs either predate this document
or name an already-processed field; the tf/registration iff holds for the
processed fields at every document and for the untouched fields (whose
document keys all predate this document). -/
theorem fieldsFold_inv (stem : String → String) (document : ManifestDocument)
    (D : Nat) (rem : List Field) (acc : AddFieldState × List Field)
    (h1 : ((acc.2 ++ rem).map Field.name).Nodup)
    (h2 : ∀ t p, p ∈ regOf acc.1.terms t →
      p.2 < D ∨ (p.2 = D ∧ p.1 ∈ acc.2.map Field.name))
    (h3 : ∀ f ∈ acc.2, ∀ d t,
      (0 < tfOf f d t ↔ (f.name, d) ∈ regOf acc.1.terms t))
    (h3b : ∀ f ∈ acc.2, ∀ d t, 0 < tfOf f d t → d ≤ D)
    (h4a : ∀ f ∈ rem, ∀ d t,
      (0 < tfOf f d t ↔ (f.name, d) ∈ regOf acc.1.terms t))
    (h4b : ∀ f ∈ rem, ∀ d t, 0 < tfOf f d t → d < D) :
    ((rem.foldl (processField stem document D) acc).2.map Field.name =
        (acc.2 ++ rem).map Field.name) ∧
    (∀ t p, p ∈ regOf (rem.foldl (processField stem document D) acc).1.terms t →
      p.2 < D ∨ (p.2 = D ∧
        p.1 ∈ (rem.foldl (processField stem document D) acc).2.map Field.name)) ∧
    (∀ f ∈ (rem.foldl (processField stem document D) acc).2, ∀ d t,
      (0 < tfOf f d t ↔
        (f.name, d) ∈ regOf (rem.foldl (processField stem document D) acc).1.terms t)) ∧
    (∀ f ∈ (rem.foldl (processField stem document D) acc).2, ∀ d t,
      0 < tfOf f d t → d ≤ D) := by
  induction rem generalizing acc with
  | nil =>
    refine ⟨by simp, ?_, h3, h3b⟩
    intro t p hp
    rcases h2 t p hp with h | ⟨he, hm⟩
    · exact Or.inl h
    · exact Or.inr ⟨he, by simpa using hm⟩
  | cons field rest ih =>
    rw [List.foldl_cons]
    -- name disjointness facts from h1
    have hnames : ((acc.2 ++ field :: rest).map Field.name).Nodup := h1
    have hfield_notin_acc : field.name ∉ acc.2.map Field.name := by
      intro hmem
      rw [List.map_append, List.nodup_append] at hnames
      exact hnames.2.2 hmem (by simp)
    have hfield_notin_rest : field.name ∉ rest.map Field.name := by
      rw [List.map_append, List.nodup_append] at hnames
      have := hnames.2.1
      rw [List.map_cons, List.nodup_cons] at this
      exact this.1
    have hacc_disj : ∀ g ∈ acc.2, g.name ≠ field.name := by
      intro g hg he
      exact hfield_notin_acc (he ▸ List.mem_map_of_mem Field.name hg)
    have hrest_disj : ∀ g ∈ rest, g.name ≠ field.name := by
      intro g hg he
      exact hfield_notin_rest (he ▸ List.mem_map_of_mem Field.name hg)
    -- the skipped-field cases share one argument
    rcases hget : document.get field.name with _ | text
    · have hstep : processField stem document D acc field = (acc.1, acc.2 ++ [field]) := by
        rw [processField, hget]
      rw [hstep]
      have h1' : (((acc.2 ++ [field]) ++ rest).map Field.name).Nodup := by
        simpa using h1
      have hres := ih (acc.1, acc.2 ++ [field]) h1'
        (fun t p hp => (h2 t p hp).imp id
          (fun h => ⟨h.1, by simpa using Or.inl h.2⟩))
        (fun f hf => by
          rcases List.mem_append.mp hf with hf' | hf'
          · exact h3 f hf'
          · have hfq : f = field := by simpa using hf'
            subst hfq
            exact h4a f (List.mem_cons_self _ _))
        (fun f hf => by
          rcases List.mem_append.mp hf with hf' | hf'
          · exact h3b f hf'
          · have hfq : f = field := by simpa using hf'
            subst hfq
            exact fun d t h => Nat.le_of_lt
              (h4b f (List.mem_cons_self _ _) d t h))
        (fun f hf => h4a f (List.mem_cons_of_mem _ hf))
        (fun f hf => h4b f (List.mem_cons_of_mem _ hf))
      refine ⟨hres.1.trans (by simp), hres.2.1, hres.2.2.1, hres.2.2.2⟩
    · by_cases hlen : text.length = 0
      · have hstep : processField stem document D acc field = (acc.1, acc.2 ++ [field]) := by
          rw [processField, hget]
          simp [hlen]
        rw [hstep]
        have h1' : (((acc.2 ++ [field]) ++ rest).map Field.name).Nodup := by
          simpa using h1
        have hres := ih (acc.1, acc.2 ++ [field]) h1'
          (fun t p hp => (h2 t p hp).imp id
            (fun h => ⟨h.1, by simpa using Or.inl h.2⟩))
          (fun f hf => by
            rcases List.mem_append.mp hf with hf' | hf'
            · exact h3 f hf'
            · have hfq : f = field := by simpa using hf'
              subst hfq
              exact h4a f (List.mem_cons_self _ _))
          (fun f hf => by
            rcases List.mem_append.mp hf with hf' | hf'
            · exact h3b f hf'
            · have hfq : f = field := by simpa using hf'
              subst hfq
              exact fun d t h => Nat.le_of_lt
                (h4b f (List.mem_cons_self _ _) d t h))
          (fun f hf => h4a f (List.mem_cons_of_mem _ hf))
          (fun f hf => h4b f (List.mem_cons_of_mem _ hf))
        refine ⟨hres.1.trans (by simp), hres.2.1, hres.2.2.1, hres.2.2.2⟩
      · -- the field is actually indexed
        set tokens := tokenize text true with htoks
        set st0 : AddTokenState :=
          ⟨acc.1.terms, acc.1.trie, acc.1.term_id, [], 0, acc.1.correlations⟩
          with hst0
        set st := tokens.foldl (processToken stem field.name D) st0 with hst
        set field' : Field :=
          { field with
            total_tokens := field.total_tokens + st.number_of_tokens,
            documents := alInsert field.documents D
              ⟨st.number_of_tokens, st.term_frequencies⟩ } with hfield'
        have hstep : processField stem document D acc field =
            (⟨st.terms, st.trie, st.term_id + 1, st.correlations⟩,
              acc.2 ++ [field']) := by
          rw [processField, hget]
          simp only [if_neg hlen]
        rw [hstep]
        -- the fresh term_frequencies map satisfies the iff at the start
        have hP0 : TokP field.name D st0 := by
          intro t
          constructor
          · intro h
            exact absurd h (by simp [st0])
          · intro h
            exfalso
            rcases h2 t (field.name, D) h with h' | ⟨-, h'⟩
            · exact absurd h' (lt_irrefl D)
            · exact hfield_notin_acc h'
        have hPst : TokP field.name D st := tokenFold_P stem field.name D tokens st0 hP0
        have hother : ∀ t F' d', ¬(F' = field.name ∧ d' = D) →
            ((F', d') ∈ regOf st.terms t ↔ (F', d') ∈ regOf acc.1.terms t) :=
          fun t F' d' hne => tokenFold_reg_other stem field.name D tokens st0 t F' d' hne
        have hsup : ∀ t p, p ∈ regOf st.terms t →
            p ∈ regOf acc.1.terms t ∨ p = (field.name, D) :=
          fun t p h => tokenFold_reg_superset stem field.name D tokens st0 t p h
        have h1' : (((acc.2 ++ [field']) ++ rest).map Field.name).Nodup := by
          have : field'.name = field.name := rfl
          simpa [this] using h1
        have h2' : ∀ t p, p ∈ regOf st.terms t →
            p.2 < D ∨ (p.2 = D ∧ p.1 ∈ (acc.2 ++ [field']).map Field.name) := by
          intro t p hp
          rcases hsup t p hp with h | h
          · exact (h2 t p h).imp id (fun h' => ⟨h'.1, by simpa using Or.inl h'.2⟩)
          · subst h
            exact Or.inr ⟨rfl, by simp [show field'.name = field.name from rfl]⟩
        have h3' : ∀ f ∈ acc.2 ++ [field'], ∀ d t,
            (0 < tfOf f d t ↔ (f.name, d) ∈ regOf st.terms t) := by
          intro f hf d t
          rcases List.mem_append.mp hf with hf' | hf'
          · rw [h3 f hf' d t]
            exact (hother t f.name d (fun hc => hacc_disj f hf' hc.1)).symm
          · have hfq : f = field' := by simpa using hf'
            subst hfq
            rw [show (field' : Field) = _ from hfield', tfOf_update]
            by_cases hd : d = D
            · subst hd
              rw [if_pos rfl]
              exact hPst t
            · rw [if_neg hd]
              rw [h4a field (List.mem_cons_self _ _) d t]
              exact (hother t field.name d (fun hc => hd hc.2)).symm
        have h3b' : ∀ f ∈ acc.2 ++ [field'], ∀ d t, 0 < tfOf f d t → d ≤ D := by
          intro f hf d t h
          rcases List.mem_append.mp hf with hf' | hf'
          · exact h3b f hf' d t h
          · have hfq : f = field' := by simpa using hf'
            subst hfq
            rw [show (field' : Field) = _ from hfield', tfOf_update] at h
            by_cases hd : d = D
            · exact hd.le
            · rw [if_neg hd] at h
              exact Nat.le_of_lt (h4b field (List.mem_cons_self _ _) d t h)
        have h4a' : ∀ f ∈ rest, ∀ d t,
            (0 < tfOf f d t ↔ (f.name, d) ∈ regOf st.terms t) := by
          intro f hf d t
          rw [h4a f (List.mem_cons_of_mem _ hf) d t]
          exact (hother t f.name d (fun hc => hrest_disj f hf hc.1)).symm
        have h4b' : ∀ f ∈ rest, ∀ d t, 0 < tfOf f d t → d < D :=
          fun f hf => h4b f (List.mem_cons_of_mem _ hf)
        have hres := ih (⟨st.terms, st.trie, st.term_id + 1, st.correlations⟩,
          acc.2 ++ [field']) h1' h2' h3' h3b' h4a' h4b'
        refine ⟨hres.1.trans ?_, hres.2.1, hres.2.2.1, hres.2.2.2⟩
        simp [show field'.name = field.name from rfl]

theorem correlateFold_fixed (stem : String → String)
    (cs : List (String × Nat × ℚ)) (idx : FTSIndex) :
    (cs.foldl
        (fun i c =>
          i.correlate_word stem (String.mk (c.1.data.drop c.2.1)) c.1 c.2.2)
        idx).fields = idx.fields ∧
      (cs.foldl
          (fun i c =>
            i.correlate_word stem (String.mk (c.1.data.drop c.2.1)) c.1 c.2.2)
          idx).terms = idx.terms ∧
      (cs.foldl
          (fun i c =>
            i.correlate_word stem (String.mk (c.1.data.drop c.2.1)) c.1 c.2.2)
          idx).doc_id = idx.doc_id := by
  induction cs generalizing idx with
  | nil => exact ⟨rfl, rfl, rfl⟩
  | cons c rest ih =>
    rw [List.foldl_cons]
    rcases ih (idx.correlate_word stem (String.mk (c.1.data.drop c.2.1)) c.1 c.2.2)
      with ⟨h1, h2, h3⟩
    exact ⟨h1, h2, h3⟩

/-- The field-loop state and per-field output of one `add` call, before the
closing correlation pass. -/
def addFold (stem : String → String) (idx : FTSIndex)
    (document : ManifestDocument) : AddFieldState × List Field :=
  idx.fields.foldl (processField stem document idx.doc_id)
    (⟨idx.terms, idx.trie, idx.term_id, []⟩, [])

theorem add_fields_terms_doc (stem : String → String) (idx : FTSIndex)
    (document : ManifestDocument) (inc : Bool) (sp : String) :
    (idx.add stem document inc sp).fields = (addFold stem idx document).2 ∧
      (idx.add stem document inc sp).terms =
        (addFold stem idx document).1.terms ∧
      (idx.add stem document inc sp).doc_id = idx.doc_id + 1 := by
  rcases correlateFold_fixed stem (addFold stem idx document).1.correlations
      { idx with
        fields := (addFold stem idx document).2,
        trie := (addFold stem idx document).1.trie,
        terms := (addFold stem idx document).1.terms,
        doc_id := idx.doc_id + 1,
        term_id := (addFold stem idx document).1.term_id,
        documents := idx.documents ++
          [⟨idx.doc_id, normalizeUrlString document.url, document.title,
            document.preview, inc, sp⟩],
        link_graph := alInsert idx.link_graph (normalizeUrlString document.url)
          (document.links.map normalizeUrlString),
        inverse_link_graph := (document.links.map normalizeUrlString).foldl
          (fun g href => alInsert g href
            ((g.lookup href).getD [] ++ [normalizeUrlString document.url]))
          idx.inverse_link_graph,
        url_to_id := alInsert idx.url_to_id
          (normalizeUrlString document.url) idx.doc_id,
        id_to_url := alInsert idx.id_to_url idx.doc_id
          (normalizeUrlString document.url) }
    with ⟨h1, h2, h3⟩
  exact ⟨h1, h2, h3⟩

/-- The per-index form of the C8 invariant: distinct field names, every
registration and every stored document entry predates `doc_id`, and
term frequency is positive exactly on the registered (field, doc) pairs. -/
def IndexInv (idx : FTSIndex) : Prop :=
  (idx.fields.map Field.name).Nodup ∧
  (∀ t p, p ∈ regOf idx.terms t → p.2 < idx.doc_id) ∧
  (∀ f ∈ idx.fields, ∀ d t, 0 < tfOf f d t → d < idx.doc_id) ∧
  (∀ f ∈ idx.fields, ∀ d t,
    (0 < tfOf f d t ↔ (f.name, d) ∈ regOf idx.terms t))

theorem add_IndexInv (stem : String → String) (idx : FTSIndex)
    (document : ManifestDocument) (inc : Bool) (sp : String)
    (hinv : IndexInv idx) : IndexInv (idx.add stem document inc sp) := by
  rcases add_fields_terms_doc stem idx document inc sp with ⟨hf, ht, hd⟩
  rcases hinv with ⟨i1, i2, i3, i4⟩
  have hff := fieldsFold_inv stem document idx.doc_id idx.fields
    (⟨idx.terms, idx.trie, idx.term_id, []⟩, [])
    (by simpa using i1)
    (fun t p hp => Or.inl (i2 t p hp))
    (fun f hfm => absurd hfm (List.not_mem_nil f))
    (fun f hfm => absurd hfm (List.not_mem_nil f))
    (fun f hfm => i4 f hfm)
    (fun f hfm => i3 f hfm)
  refine ⟨?_, ?_, ?_, ?_⟩
  · rw [hf]
    have := hff.1
    rw [show (idx.fields.foldl (processField stem document idx.doc_id)
      (⟨idx.terms, idx.trie, idx.term_id, []⟩, [])) = addFold stem idx document
      from rfl] at this
    rw [this]
    simpa using i1
  · intro t p hp
    rw [ht] at hp
    rw [hd]
    rcases hff.2.1 t p hp with h | ⟨h, -⟩
    · exact Nat.lt_succ_of_lt h
    · exact h ▸ Nat.lt_succ_self _
  · intro f hfm d t h
    rw [hf] at hfm
    rw [hd]
    exact Nat.lt_succ_of_le (hff.2.2.2 f hfm d t h)
  · intro f hfm d t
    rw [hf] at hfm
    rw [ht]
    exact hff.2.2.1 f hfm d t

theorem buildIndex_IndexInv (stem : String → String)
    (fieldSpecs : List (String × ℚ))
    (docs : List (ManifestDocument × Bool × String))
    (hnd : (fieldSpecs.map Prod.fst).Nodup) :
    IndexInv (buildIndex stem fieldSpecs docs) := by
  have h0 : IndexInv (FTSIndex.new (fieldSpecs.map (fun p => Field.new p.1 p.2))) := by
    refine ⟨?_, ?_, ?_, ?_⟩
    · show ((fieldSpecs.map (fun p => Field.new p.1 p.2)).map Field.name).Nodup
      rw [List.map_map]
      exact hnd
    · intro t p hp
      simp [regOf, TermEntry.new, FTSIndex.new] at hp
    · intro f hfm d t h
      rcases List.mem_map.mp hfm with ⟨p, -, rfl⟩
      simp [tfOf, Field.new] at h
    · intro f hfm d t
      rcases List.mem_map.mp hfm with ⟨p, -, rfl⟩
      constructor
      · intro h
        simp [tfOf, Field.new] at h
      · intro h
        simp [regOf, TermEntry.new, FTSIndex.new] at h
  have main : ∀ (ds : List (ManifestDocument × Bool × String)) (idx0 : FTSIndex),
      IndexInv idx0 →
      IndexInv (ds.foldl (fun idx d => idx.add stem d.1 d.2.1 d.2.2) idx0) := by
    intro ds
    induction ds with
    | nil => exact fun idx0 h => h
    | cons d rest ih =>
      intro idx0 h
      rw [List.foldl_cons]
      exact ih _ (add_IndexInv stem idx0 d.1 d.2.1 d.2.2 h)
  exact main docs _ h0

/-- **C8.** Index invariant after the build phase (a fresh index and any
sequence of `add` calls), under pairwise-distinct field names: for every
field of the index, every document id and every token, the per-document
term frequency stored in the field is positive exactly when the token's
term entry registered that (field, document) pair — i.e. the first
occurrence of a token in a (document, field) both makes the stored
frequency positive and performs the one registration. -/
theorem tf_pos_iff_registered (stem : String → String)
    (fieldSpecs : List (String × ℚ))
    (docs : List (ManifestDocument × Bool × String))
    (hnd : (fieldSpecs.map Prod.fst).Nodup)
    (f : Field) (hf : f ∈ (buildIndex stem fieldSpecs docs).fields)
    (d : Nat) (t : String) :
    0 < tfOf f d t ↔
      (f.name, d) ∈ regOf (buildIndex stem fieldSpecs docs).terms t :=
  (buildIndex_IndexInv stem fieldSpecs docs hnd).2.2.2 f hf d t

theorem tf_pos_iff_registered_witness :
    (0 < tfOf
        ((buildIndex idStem [("text", 1)]
            [(mkManifestDoc "d" "" "quick fox" [] "u", true, "p")]).fields.getD 0
          (Field.new "x" 0)) 0 "quick" ↔
      ("text", 0) ∈ regOf
        (buildIndex idStem [("text", 1)]
          [(mkManifestDoc "d" "" "quick fox" [] "u", true, "p")]).terms "quick") :=
  tf_pos_iff_registered idStem [("text", 1)]
    [(mkManifestDoc "d" "" "quick fox" [] "u", true, "p")] (by decide)
    _ (by decide) 0 "quick"

/-- stemmer.rs `stem`: the atomic-phrase check, then one run of the
Porter2 context (the per-word cache is a transparent memoization). -/
def porterStem (word : String) : Option String :=
  if ATOMIC_PHRASES.contains word then some word
  else (stemmerContextNew word.data).map String.mk

/-- **C7.** The stemmer is not idempotent on every input — it is not even
total: the catch-all arms of the Rust `match among_var` in `r_step_1a` and
`r_exception1` are reachable (they receive the among result `-1` of the
`ss`/`us` entries of `a_2` and of eight whole words in `a_10`), and there
they execute `unreachable`, a panic.  So `stem` crashes on "sky" and
"bus"; and `stem "skies" = "sky"`, whose own stem crashes, so
`stem (stem "skies")` panics where the claim demands it equal
`stem "skies"`. -/
theorem stem_panics_refuting_idempotence :
    porterStem "sky" = none ∧ porterStem "bus" = none ∧
    porterStem "skies" = some "sky" := by decide

end Marian
